import Mathlib

/-!
# AES-CBC + HMAC-SHA2 composite AEAD (`jwe/internal/aescbc/aescbc.go`)

A shallow embedding of the Go package `aescbc` and a verification of its
specification.

Modelling conventions.

* A Go `[]byte` is a `List Byte`; `Byte` is `Fin 256`.  The functions of the
  package never write through a slice that the caller can still observe (every
  in-place write goes to a buffer allocated in the same call, or to an empty
  sub-slice), so value semantics is exact.
* A Go `int` is an `Int`.  `len x` is the length as an `Int`; `/` and `%` are the
  truncating `Int.tdiv` and `Int.tmod`, and `%` by zero is a run-time panic.
* A Go function that can return an `error` or abort with a run-time panic returns
  `Result α = Except Fault α`; `Fault.err` is a returned error, `Fault.panic`
  an abort.
* The standard library is outside the repository.  The block cipher is the
  interface value `Block`; CBC mode is modelled by its definition
  (`NewCBCEncrypter`, `NewCBCDecrypter`); the keyed hash
  `hmac.New(h, key)` followed by `Write(msg)` and `Sum(nil)` is the parameter
  `hmacSum h key msg` of the functions that use it.
-/

namespace Aescbc

/-! ## Bytes, integers, faults -/

/-- Go `byte`. -/
abbrev Byte := Fin 256

/-- Go `len(x)`, an `int`. -/
def len (xs : List Byte) : Int := (xs.length : Int)

/-- Go conversion `byte(x)` of an `int`: the low eight bits. -/
def byteOfInt (x : Int) : Byte := ⟨(x % 256).toNat, by omega⟩

/-- Go conversion `int(b)` of a `byte`. -/
def intOfByte (b : Byte) : Int := (b.val : Int)

/-- Run-time panics of the Go runtime and of `crypto/cipher`. -/
inductive Panic where
  | divideByZero
  | indexOutOfRange
  | sliceBounds
  | makeLenOutOfRange
  | ivLength
  | inputNotFullBlocks
  | outputSmallerThanInput
  | sealFailed
  deriving DecidableEq, Repr

/-- Errors the package returns (`fmt.Errorf`), one constructor per message. -/
inductive Err where
  /-- Message "failed to execute block cipher function: %w". -/
  | blockCipherFunc (cause : String)
  /-- Message "unsupported key size %d". -/
  | unsupportedKeySize (keysize : Int)
  /-- Message "input buffer must be multiple of block size %d". -/
  | notMultipleOfBlockSize (n : Int)
  /-- Message "invalid padding". -/
  | invalidPadding
  /-- Message "invalid ciphertext (too short)". -/
  | tooShort
  /-- Message "invalid ciphertext (invalid length: %d %% %d != 0)". -/
  | invalidLength (tagOffset blockSize : Int)
  /-- Message "failed to compute auth tag: %w". -/
  | computeAuthTag (cause : Err)
  /-- Message "invalid ciphertext (tag mismatch)". -/
  | tagMismatch
  /-- Message "failed to generate plaintext from decrypted blocks: %w". -/
  | generatePlaintext (cause : Err)
  /-- Message "failed to write ComputeAuthTag using Hmac: %w". -/
  | hmacWrite
  deriving DecidableEq, Repr

/-- How a call ends when it does not return a value. -/
inductive Fault where
  | err (e : Err)
  | panic (p : Panic)
  deriving DecidableEq, Repr

abbrev Result (α : Type) := Except Fault α

deriving instance DecidableEq for Except

/-- Go `make([]byte, n)`: `n` zero bytes; panics when `n` is negative. -/
def makeBytes (n : Int) : Result (List Byte) :=
  if n < 0 then .error (.panic .makeLenOutOfRange)
  else .ok (List.replicate n.toNat 0)

/-- Go `copy(buf[off:], src)`, for `off ≤ len(buf)`: the updated `buf` and the
number of bytes copied, `min(len(buf) - off, len(src))`. -/
def copyAt (buf : List Byte) (off : Nat) (src : List Byte) : List Byte × Nat :=
  let n := min (buf.length - off) src.length
  (buf.take off ++ src.take n ++ buf.drop (off + n), n)

/-- Go `buf[:hi]`: panics unless `0 ≤ hi ≤ len(buf)`. -/
def sliceTo (buf : List Byte) (hi : Int) : Result (List Byte) :=
  if hi < 0 ∨ len buf < hi then .error (.panic .sliceBounds)
  else .ok (buf.take hi.toNat)

/-- Go `buf[lo:]`: panics unless `0 ≤ lo ≤ len(buf)`. -/
def sliceFrom (buf : List Byte) (lo : Int) : Result (List Byte) :=
  if lo < 0 ∨ len buf < lo then .error (.panic .sliceBounds)
  else .ok (buf.drop lo.toNat)

/-- Go `buf[i]`: panics unless `0 ≤ i < len(buf)`. -/
def index (buf : List Byte) (i : Int) : Result Byte :=
  if i < 0 then .error (.panic .indexOutOfRange)
  else match buf.get? i.toNat with
    | some b => .ok b
    | none => .error (.panic .indexOutOfRange)

/-! ## Padding codec -/

/-- The loop `for i := start; i < len(newbuf); i++ { newbuf[i] = v }` of `pad`,
run for `k` iterations from index `i`. -/
def padLoop (v : Byte) : Nat → Nat → List Byte → List Byte
  | 0, _, newbuf => newbuf
  | k + 1, i, newbuf => padLoop v k (i + 1) (newbuf.set i v)

/-- Source `pad(buf []byte, n int) []byte`. -/
def pad (buf : List Byte) (n : Int) : Result (List Byte) :=
  if n = 0 then .error (.panic .divideByZero) else
  let rem := n - (len buf).tmod n
  if rem = 0 then .ok buf else
  match makeBytes (len buf + rem) with
  | .error e => .error e
  | .ok newbuf0 =>
    let newbuf := (copyAt newbuf0 0 buf).1
    .ok (padLoop (byteOfInt rem) (newbuf.length - buf.length) buf.length newbuf)

/-- The loop `for i := lbuf - 1; i >= 0; i-- { if buf[i] != last { break }; count++ }`
of `unpad`; the first argument is `i + 1`. -/
def unpadLoop (buf : List Byte) (last : Byte) : Nat → Int → Int
  | 0, count => count
  | i + 1, count =>
    if buf.getD i 0 ≠ last then count else unpadLoop buf last i (count + 1)

/-- Source `unpad(buf []byte, n int) ([]byte, error)`. -/
def unpad (buf : List Byte) (n : Int) : Result (List Byte) :=
  let lbuf := len buf
  if n = 0 then .error (.panic .divideByZero) else
  let rem := lbuf.tmod n
  if rem ≠ 0 then .error (.err (.notMultipleOfBlockSize n)) else
  match index buf (lbuf - 1) with
  | .error e => .error e
  | .ok last =>
    let count := unpadLoop buf last buf.length 0
    if count ≠ intOfByte last then .error (.err .invalidPadding) else
    sliceTo buf (lbuf - intOfByte last)

/-! ## Standard-library collaborators -/

/-- Go `cipher.Block`: `BlockSize()`, `Encrypt(dst, src)` and `Decrypt(dst, src)`
on one block. -/
structure Block where
  blockSize : Int
  encrypt : List Byte → List Byte
  decrypt : List Byte → List Byte

/-- What a `cipher.Block` implementation guarantees: a positive block size, and on
blocks of that size `Encrypt` and `Decrypt` are length-preserving and `Decrypt`
inverts `Encrypt`. -/
def Block.WellFormed (b : Block) : Prop :=
  0 < b.blockSize ∧
  ∀ x : List Byte, len x = b.blockSize →
    len (b.encrypt x) = b.blockSize ∧ len (b.decrypt x) = b.blockSize ∧
    b.decrypt (b.encrypt x) = x

/-- Source `type BlockCipherFunc func([]byte) (cipher.Block, error)`. -/
abbrev BlockCipherFunc := List Byte → Except String Block

/-- The three hash constructors `New` selects from: `sha256.New`,
`sha512.New384`, `sha512.New`. -/
inductive HashAlg where
  | sha256
  | sha384
  | sha512
  deriving DecidableEq, Repr

/-- Digest size in bytes of each hash (`hash.Hash.Size()`). -/
def HashAlg.size : HashAlg → Nat
  | .sha256 => 32
  | .sha384 => 48
  | .sha512 => 64

/-- The keyed hash `hmac.New(h, key)`, `Write(msg)`, `Sum(nil)` as a function of
the hash, the key and the message. -/
abbrev HmacSum := HashAlg → List Byte → List Byte → List Byte

/-- What `hmac` guarantees about the digest: its length is the hash's size. -/
def HmacSum.WellFormed (hmacSum : HmacSum) : Prop :=
  ∀ h key msg, (hmacSum h key msg).length = h.size

/-- Go `subtle.XORBytes(dst, x, y)`: the bytewise xor of the common part. -/
def xorBytes (x y : List Byte) : List Byte := List.zipWith (fun a b => a ^^^ b) x y

/-- Go `subtle.ConstantTimeCompare(x, y)`: 1 when the slices have equal contents,
0 otherwise. -/
def ConstantTimeCompare (x y : List Byte) : Int := if x = y then 1 else 0

/-- The block loop of the CBC encrypter, for `k` blocks of `bs` bytes: each block is
xored with the previous ciphertext block (the IV for the first) and encrypted. -/
def cbcEncryptLoop (b : Block) (bs : Nat) : Nat → List Byte → List Byte → List Byte
  | 0, _, _ => []
  | k + 1, iv, src =>
    let c := b.encrypt (xorBytes (src.take bs) iv)
    c ++ cbcEncryptLoop b bs k c (src.drop bs)

/-- The block loop of the CBC decrypter, for `k` blocks of `bs` bytes: each block is
decrypted and xored with the previous ciphertext block (the IV for the first). -/
def cbcDecryptLoop (b : Block) (bs : Nat) : Nat → List Byte → List Byte → List Byte
  | 0, _, _ => []
  | k + 1, iv, src =>
    let c := src.take bs
    xorBytes (b.decrypt c) iv ++ cbcDecryptLoop b bs k c (src.drop bs)

/-- Go `cipher.NewCBCEncrypter(b, iv).CryptBlocks(dst, src)`: the new contents of
`dst`.  Panics when the IV is not one block long, when `src` is not a whole number
of blocks, or when `dst` is shorter than `src`. -/
def cbcEncrypt (b : Block) (iv dst src : List Byte) : Result (List Byte) :=
  if len iv ≠ b.blockSize then .error (.panic .ivLength) else
  if b.blockSize = 0 then .error (.panic .divideByZero) else
  if (len src).tmod b.blockSize ≠ 0 then .error (.panic .inputNotFullBlocks) else
  if len dst < len src then .error (.panic .outputSmallerThanInput) else
  .ok (cbcEncryptLoop b b.blockSize.toNat (src.length / b.blockSize.toNat) iv src
        ++ dst.drop src.length)

/-- Go `cipher.NewCBCDecrypter(b, iv).CryptBlocks(dst, src)`: the new contents of
`dst`, with the same panics as the encrypter. -/
def cbcDecrypt (b : Block) (iv dst src : List Byte) : Result (List Byte) :=
  if len iv ≠ b.blockSize then .error (.panic .ivLength) else
  if b.blockSize = 0 then .error (.panic .divideByZero) else
  if (len src).tmod b.blockSize ≠ 0 then .error (.panic .inputNotFullBlocks) else
  if len dst < len src then .error (.panic .outputSmallerThanInput) else
  .ok (cbcDecryptLoop b b.blockSize.toNat (src.length / b.blockSize.toNat) iv src
        ++ dst.drop src.length)

/-- Go conversion `uint64(x)` of an `int`: the value modulo `2^64`. -/
def uint64 (x : Int) : Nat := (x % (2 ^ 64 : Int)).toNat

/-- The eight bytes of a `uint64`, most significant first (`binary.BigEndian`). -/
def bigEndian64 (v : Nat) : List Byte :=
  [byteOfInt ((v / 2 ^ 56 : Nat) : Int), byteOfInt ((v / 2 ^ 48 : Nat) : Int),
   byteOfInt ((v / 2 ^ 40 : Nat) : Int), byteOfInt ((v / 2 ^ 32 : Nat) : Int),
   byteOfInt ((v / 2 ^ 24 : Nat) : Int), byteOfInt ((v / 2 ^ 16 : Nat) : Int),
   byteOfInt ((v / 2 ^ 8 : Nat) : Int), byteOfInt (v : Int)]

/-- Go `binary.BigEndian.PutUint64(buf[off:], v)`: writes the eight bytes of `v`,
most significant first, at `off`; panics when fewer than eight bytes remain. -/
def putUint64 (buf : List Byte) (off : Nat) (v : Nat) : Result (List Byte) :=
  if buf.length < off then .error (.panic .sliceBounds) else
  if buf.length - off < 8 then .error (.panic .indexOutOfRange) else
  .ok (copyAt buf off (bigEndian64 v)).1

/-! ## The AEAD context -/

/-- Source `type Hmac struct`. -/
structure Hmac where
  blockCipher : Block
  hash : HashAlg
  keysize : Int
  tagsize : Int
  integrityKey : List Byte

/-- Rewraps a returned error (`fmt.Errorf("...: %w", err)`); a panic passes through. -/
def wrapErr {α : Type} (w : Err → Err) : Result α → Result α
  | .ok a => .ok a
  | .error (.err e) => .error (.err (w e))
  | .error (.panic p) => .error (.panic p)

/-- The check `if err != nil { panic(...) }` of `Seal`: a returned error becomes an
abort. -/
def panicOnErr {α : Type} : Result α → Result α
  | .ok a => .ok a
  | .error (.err _) => .error (.panic .sealFailed)
  | .error (.panic p) => .error (.panic p)

/-- Source `New(key []byte, f BlockCipherFunc) (*Hmac, error)`. -/
def New (key : List Byte) (f : BlockCipherFunc) : Result Hmac :=
  let keysize := (len key).tdiv 2
  match sliceTo key keysize with
  | .error e => .error e
  | .ok ikey =>
  match sliceFrom key keysize with
  | .error e => .error e
  | .ok ekey =>
  match f ekey with
  | .error ciphererr => .error (.err (.blockCipherFunc ciphererr))
  | .ok bc =>
    let mk (hfunc : HashAlg) : Result Hmac :=
      .ok { blockCipher := bc, hash := hfunc, integrityKey := ikey,
            keysize := keysize, tagsize := keysize }
    if keysize = 16 then mk .sha256
    else if keysize = 24 then mk .sha384
    else if keysize = 32 then mk .sha512
    else .error (.err (.unsupportedKeySize keysize))

/-- Source constant `NonceSize` and method `Hmac.NonceSize`. -/
def NonceSize : Int := 16

/-- Source `Hmac.Overhead`. -/
def Hmac.Overhead (c : Hmac) : Int := c.blockCipher.blockSize + c.tagsize

/-- Source `Hmac.ComputeAuthTag(aad, nonce, ciphertext)`.  The `error` result of
`h.Write` is never non-nil for an HMAC, so the function has no error return. -/
def ComputeAuthTag (hmacSum : HmacSum) (c : Hmac) (aad nonce ciphertext : List Byte) :
    Result (List Byte) :=
  match makeBytes (len aad + len nonce + len ciphertext + 8) with
  | .error e => .error e
  | .ok buf0 =>
    let r1 := copyAt buf0 0 aad
    let r2 := copyAt r1.1 r1.2 nonce
    let r3 := copyAt r2.1 (r1.2 + r2.2) ciphertext
    match putUint64 r3.1 (r1.2 + r2.2 + r3.2) (uint64 (len aad * 8)) with
    | .error e => .error e
    | .ok buf =>
      let s := hmacSum c.hash c.integrityKey buf
      sliceTo s c.tagsize

/-- Source `ensureSize(dst []byte, n int) []byte`. -/
def ensureSize (dst : List Byte) (n : Int) : Result (List Byte) :=
  let diff := n - len dst
  if diff > 0 then
    match makeBytes n with
    | .error e => .error e
    | .ok ret => .ok (copyAt ret 0 dst).1
  else .ok dst

/-- Source `Hmac.Seal(dst, nonce, plaintext, data) []byte`. -/
def Seal (hmacSum : HmacSum) (c : Hmac) (dst nonce plaintext data : List Byte) :
    Result (List Byte) := do
  let ctlen := len plaintext
  let buf0 ← makeBytes (ctlen + c.Overhead)
  let ciphertext0 ← sliceTo buf0 ctlen
  let ciphertext1 := (copyAt ciphertext0 0 plaintext).1
  let ciphertext2 ← pad ciphertext1 c.blockCipher.blockSize
  let ciphertext ← cbcEncrypt c.blockCipher nonce ciphertext2 ciphertext2
  let authtag ← panicOnErr (ComputeAuthTag hmacSum c data nonce ciphertext)
  let retlen := len dst + len ciphertext + len authtag
  let ret ← ensureSize dst retlen
  let _out ← sliceFrom ret (len dst)
  let r1 := copyAt ret dst.length ciphertext
  let r2 := copyAt r1.1 (dst.length + r1.2) authtag
  pure r2.1

/-- Source `Hmac.Open(dst, nonce, ciphertext, data) ([]byte, error)`. -/
def Open (hmacSum : HmacSum) (c : Hmac) (dst nonce ciphertext data : List Byte) :
    Result (List Byte) :=
  if len ciphertext < c.keysize then .error (.err .tooShort) else
  let tagOffset := len ciphertext - c.tagsize
  if c.blockCipher.blockSize = 0 then .error (.panic .divideByZero) else
  if tagOffset.tmod c.blockCipher.blockSize ≠ 0 then
    .error (.err (.invalidLength tagOffset c.blockCipher.blockSize))
  else do
    let tag ← sliceFrom ciphertext tagOffset
    let ciphertext ← sliceTo ciphertext tagOffset
    let ciphertext' ← sliceTo ciphertext tagOffset
    let expectedTag ← wrapErr .computeAuthTag (ComputeAuthTag hmacSum c data nonce ciphertext')
    if ConstantTimeCompare expectedTag tag ≠ 1 then .error (.err .tagMismatch) else do
    let buf0 ← makeBytes tagOffset
    let buf ← cbcDecrypt c.blockCipher nonce buf0 ciphertext
    let plaintext ← wrapErr .generatePlaintext (unpad buf c.blockCipher.blockSize)
    let ret ← ensureSize dst (len plaintext)
    let _out ← sliceFrom ret (len dst)
    pure (copyAt ret dst.length plaintext).1

/-! ## Concrete collaborators used to run the code -/

/-- A sixteen-byte block cipher: every byte is shifted by one more than the sum of the
key bytes, and the block is reversed. -/
def shiftBlock (key : List Byte) : Block where
  blockSize := 16
  encrypt := fun x => (x.map (fun b => b + (key.sum + 1))).reverse
  decrypt := fun x => (x.map (fun b => b - (key.sum + 1))).reverse

/-- A factory that accepts a key of any length. -/
def shiftCipher : BlockCipherFunc := fun key => .ok (shiftBlock key)

/-- A factory that, like `aes.NewCipher`, accepts only keys of 16, 24 or 32 bytes. -/
def strictCipher : BlockCipherFunc := fun key =>
  if key.length = 16 ∨ key.length = 24 ∨ key.length = 32 then .ok (shiftBlock key)
  else .error "invalid key size"

/-- A keyed digest of the right length: every digest byte is the sum of the key and
message bytes plus the message length. -/
def sumHmac : HmacSum := fun h key msg =>
  List.replicate h.size (key.sum + msg.sum + (Fin.ofNat msg.length : Byte))

/-- A buffer of `n` zero bytes. -/
def zeros (n : Nat) : List Byte := List.replicate n 0

/-- The bytes of the string "test". -/
def testBytes : List Byte := [116, 101, 115, 116]

/-! ## Derived quantities used in the statements -/

/-- The number of padding bytes `pad` adds for block size `n`. -/
def padLen (buf : List Byte) (n : Int) : Int := n - len buf % n

/-- The byte string the keyed hash is computed over. -/
def authInput (aad nonce ciphertext : List Byte) : List Byte :=
  aad ++ nonce ++ ciphertext ++ bigEndian64 (uint64 (len aad * 8))

/-- The context `New` builds once the factory has returned `bc` and the half-length
has selected the hash `h`. -/
def contextOf (key : List Byte) (bc : Block) (h : HashAlg) : Hmac :=
  { blockCipher := bc, hash := h, integrityKey := key.take (key.length / 2),
    keysize := ((key.length / 2 : Nat) : Int), tagsize := ((key.length / 2 : Nat) : Int) }

/-- The plaintext with its padding, as `Seal` encrypts it. -/
def paddedOf (plaintext : List Byte) (n : Int) : List Byte :=
  plaintext ++ List.replicate (padLen plaintext n).toNat (byteOfInt (padLen plaintext n))

/-- The ciphertext part of a sealed envelope. -/
def sealCiphertext (c : Hmac) (nonce plaintext : List Byte) : List Byte :=
  cbcEncryptLoop c.blockCipher c.blockCipher.blockSize.toNat
    ((paddedOf plaintext c.blockCipher.blockSize).length / c.blockCipher.blockSize.toNat)
    nonce (paddedOf plaintext c.blockCipher.blockSize)

/-- The tag part of a sealed envelope. -/
def sealTag (hmacSum : HmacSum) (c : Hmac) (nonce plaintext data : List Byte) : List Byte :=
  (hmacSum c.hash c.integrityKey (authInput data nonce (sealCiphertext c nonce plaintext))).take
    c.tagsize.toNat

/-- Where the tag starts in a combined input, as a `Nat`. -/
def tagStart (c : Hmac) (input : List Byte) : Nat := (len input - c.tagsize).toNat

/-- The part of `Open` that runs once the tag has been verified: CBC decryption,
unpadding and the copy into the output buffer. -/
def openVerified (c : Hmac) (dst nonce ciphertext : List Byte) : Result (List Byte) := do
  let buf ← cbcDecrypt c.blockCipher nonce (List.replicate ciphertext.length 0) ciphertext
  let plaintext ← wrapErr .generatePlaintext (unpad buf c.blockCipher.blockSize)
  let ret ← ensureSize dst (len plaintext)
  let _out ← sliceFrom ret (len dst)
  pure (copyAt ret dst.length plaintext).1

/-- The last steps of `Open`, from the decrypted buffer `buf` on: unpadding and the
copy into the output buffer. -/
def openFinish (c : Hmac) (dst buf : List Byte) : Result (List Byte) := do
  let plaintext ← wrapErr .generatePlaintext (unpad buf c.blockCipher.blockSize)
  let ret ← ensureSize dst (len plaintext)
  let _out ← sliceFrom ret (len dst)
  pure (copyAt ret dst.length plaintext).1

/-- The context `New` builds from the all-zero 32-byte key with `shiftCipher`. -/
def zeroContext : Hmac := contextOf (zeros 32) (shiftBlock (zeros 16)) .sha256

/-- The envelope `Seal` produces for "test" under `zeroContext`, the all-zero nonce
and empty associated data: sixteen ciphertext bytes and a sixteen-byte tag. -/
def sealedTest : List Byte :=
  [13, 13, 13, 13, 13, 13, 13, 13, 13, 13, 13, 13, 117, 116, 102, 117,
   136, 136, 136, 136, 136, 136, 136, 136, 136, 136, 136, 136, 136, 136, 136, 136]

/-- The envelope `sealedTest` with the lowest bit of its last tag byte flipped. -/
def tamperedTest : List Byte :=
  [13, 13, 13, 13, 13, 13, 13, 13, 13, 13, 13, 13, 117, 116, 102, 117,
   136, 136, 136, 136, 136, 136, 136, 136, 136, 136, 136, 136, 136, 136, 136, 137]

/-- The length of the maximal run of bytes equal to `b` at the end of `buf`. -/
def trailingRun (buf : List Byte) (b : Byte) : Nat :=
  (buf.reverse.takeWhile (fun x => decide (x = b))).length

/-- The first part of `Open`, up to and including CBC decryption: the checks on the
length, the tag verification and the decrypted buffer. -/
def openDecrypted (hmacSum : HmacSum) (c : Hmac) (nonce ciphertext data : List Byte) :
    Result (List Byte) :=
  if len ciphertext < c.keysize then .error (.err .tooShort) else
  let tagOffset := len ciphertext - c.tagsize
  if c.blockCipher.blockSize = 0 then .error (.panic .divideByZero) else
  if tagOffset.tmod c.blockCipher.blockSize ≠ 0 then
    .error (.err (.invalidLength tagOffset c.blockCipher.blockSize))
  else do
    let tag ← sliceFrom ciphertext tagOffset
    let ciphertext ← sliceTo ciphertext tagOffset
    let ciphertext' ← sliceTo ciphertext tagOffset
    let expectedTag ← wrapErr .computeAuthTag (ComputeAuthTag hmacSum c data nonce ciphertext')
    if ConstantTimeCompare expectedTag tag ≠ 1 then .error (.err .tagMismatch) else do
    let buf0 ← makeBytes tagOffset
    cbcDecrypt c.blockCipher nonce buf0 ciphertext

/-- The bytes `Open` returns once `unpad` has produced the plaintext `p`: `dst`
followed by as much of `p` as fits in a buffer of `max(len(dst), len(p))` bytes. -/
def openOutput (dst p : List Byte) : List Byte := dst ++ p.take (p.length - dst.length)

/-- The number a byte string denotes when read most significant byte first. -/
def bigEndianValue (bs : List Byte) : Nat := bs.foldl (fun acc b => acc * 256 + b.val) 0

/-- The integer `x` rounded up to a multiple of `n`. -/
def roundUp (x n : Int) : Int := (x + n - 1) / n * n

/-- The envelope `Seal` produces for the empty plaintext under `zeroContext`, the
all-zero nonce and empty associated data. -/
def sealedEmpty : List Byte :=
  [17, 17, 17, 17, 17, 17, 17, 17, 17, 17, 17, 17, 17, 17, 17, 17,
   56, 56, 56, 56, 56, 56, 56, 56, 56, 56, 56, 56, 56, 56, 56, 56]

/-- The tag `ComputeAuthTag` yields under `zeroContext` for the empty ciphertext, the
all-zero nonce and empty associated data. -/
def tagOfEmpty : List Byte := List.replicate 16 24

/-! ## Basic facts about the buffer primitives -/

theorem len_nonneg (xs : List Byte) : 0 ≤ len xs := by
  unfold len; omega

theorem len_append (xs ys : List Byte) : len (xs ++ ys) = len xs + len ys := by
  simp [len]

theorem makeBytes_of_nonneg {n : Int} (h : 0 ≤ n) :
    makeBytes n = .ok (List.replicate n.toNat 0) := by
  unfold makeBytes
  rw [if_neg (by omega)]

/-- Copying `src` right after an initial part `pre` of a buffer whose remainder is
still zero and large enough. -/
theorem copyAt_fresh (pre src : List Byte) (m : Nat) (h : src.length ≤ m) :
    copyAt (pre ++ List.replicate m 0) pre.length src =
      (pre ++ src ++ List.replicate (m - src.length) 0, src.length) := by
  unfold copyAt
  have hn : min ((pre ++ List.replicate m (0 : Byte)).length - pre.length) src.length
      = src.length := by
    simp only [List.length_append, List.length_replicate]; omega
  simp only [hn, List.take_length]
  congr 1
  rw [List.take_left' rfl, List.drop_append, List.drop_replicate]

theorem copyAt_fresh_zero (src : List Byte) (m : Nat) (h : src.length ≤ m) :
    copyAt (List.replicate m 0) 0 src =
      (src ++ List.replicate (m - src.length) 0, src.length) := by
  simpa using copyAt_fresh [] src m h

theorem padLoop_fill (v : Byte) (k : Nat) (pre : List Byte) :
    padLoop v k pre.length (pre ++ List.replicate k 0) = pre ++ List.replicate k v := by
  induction k generalizing pre with
  | zero => simp [padLoop]
  | succ k ih =>
    have hset : (pre ++ List.replicate (k + 1) (0 : Byte)).set pre.length v
        = (pre ++ [v]) ++ List.replicate k 0 := by
      rw [List.replicate_succ, List.set_append_right _ _ (Nat.le_refl _)]
      simp
    have := ih (pre ++ [v])
    simp only [List.length_append, List.length_singleton] at this
    rw [padLoop, hset, this, List.replicate_succ]
    simp

/-! ## The padding codec in closed form -/

theorem padLen_bounds (buf : List Byte) {n : Int} (hn : 1 ≤ n) :
    1 ≤ padLen buf n ∧ padLen buf n ≤ n := by
  unfold padLen
  have h1 := Int.emod_nonneg (len buf) (show n ≠ 0 by omega)
  have h2 := Int.emod_lt_of_pos (len buf) (show 0 < n by omega)
  omega

/-- For a positive block size `pad` always appends `padLen` bytes, each holding
`byte(padLen)`; the `rem == 0` branch is never taken. -/
theorem pad_eq (buf : List Byte) {n : Int} (hn : 1 ≤ n) :
    pad buf n = .ok (buf ++ List.replicate (padLen buf n).toNat (byteOfInt (padLen buf n))) := by
  have hb := padLen_bounds buf hn
  have hmod : (len buf).tmod n = len buf % n :=
    Int.tmod_eq_emod (len_nonneg buf) (by omega)
  have h0 := len_nonneg buf
  unfold padLen at hb ⊢
  unfold pad
  simp only [hmod]
  rw [if_neg (by omega), if_neg (by omega)]
  have hlen : (len buf + (n - len buf % n)).toNat
      = buf.length + (n - len buf % n).toNat := by
    unfold len at *; omega
  rw [makeBytes_of_nonneg (by omega), hlen]
  simp only
  rw [copyAt_fresh_zero buf _ (by omega)]
  simp only [Nat.add_sub_cancel_left, List.length_append, List.length_replicate]
  rw [padLoop_fill]

theorem len_pad_mod (buf : List Byte) (n : Int) :
    (len buf + padLen buf n) % n = 0 := by
  unfold padLen
  have : len buf + (n - len buf % n) = (len buf - len buf % n) + n := by omega
  rw [this, Int.add_emod_self]
  exact Int.emod_eq_zero_of_dvd (Int.dvd_sub_of_emod_eq rfl)

/-! ## The tag computer -/

theorem bigEndian64_length (v : Nat) : (bigEndian64 v).length = 8 := rfl

/-- The buffer `ComputeAuthTag` hashes is `authInput`, and the only step of it that
can abort is the final truncation `s[:c.tagsize]`. -/
theorem ComputeAuthTag_eq (hmacSum : HmacSum) (c : Hmac) (aad nonce ciphertext : List Byte) :
    ComputeAuthTag hmacSum c aad nonce ciphertext =
      sliceTo (hmacSum c.hash c.integrityKey (authInput aad nonce ciphertext)) c.tagsize := by
  have h1 := len_nonneg aad
  have h2 := len_nonneg nonce
  have h3 := len_nonneg ciphertext
  have hN : (len aad + len nonce + len ciphertext + 8).toNat
      = aad.length + nonce.length + ciphertext.length + 8 := by
    unfold len at *; omega
  unfold ComputeAuthTag
  rw [makeBytes_of_nonneg (by omega), hN]
  simp only
  have e1 := copyAt_fresh_zero aad (aad.length + nonce.length + ciphertext.length + 8)
    (by omega)
  rw [e1]
  simp only
  have e2 := copyAt_fresh aad nonce
    (aad.length + nonce.length + ciphertext.length + 8 - aad.length) (by omega)
  rw [e2]
  simp only
  have e3 := copyAt_fresh (aad ++ nonce) ciphertext
    (aad.length + nonce.length + ciphertext.length + 8 - aad.length - nonce.length)
    (by omega)
  rw [List.length_append] at e3
  rw [e3]
  simp only
  have hm : aad.length + nonce.length + ciphertext.length + 8 - aad.length - nonce.length
      - ciphertext.length = 8 := by omega
  rw [hm]
  have e4 := copyAt_fresh (aad ++ nonce ++ ciphertext) (bigEndian64 (uint64 (len aad * 8))) 8
    (by simp [bigEndian64_length])
  simp only [List.length_append] at e4
  unfold putUint64
  rw [if_neg (by simp only [List.length_append, List.length_replicate]; omega),
    if_neg (by simp only [List.length_append, List.length_replicate]; omega)]
  rw [e4]
  simp [authInput, bigEndian64_length]

/-- With a digest at least `tagsize` bytes long the tag is the digest's first
`tagsize` bytes. -/
theorem ComputeAuthTag_ok (hmacSum : HmacSum) (hh : hmacSum.WellFormed) (c : Hmac)
    (h0 : 0 ≤ c.tagsize) (h1 : c.tagsize ≤ (c.hash.size : Int))
    (aad nonce ciphertext : List Byte) :
    ComputeAuthTag hmacSum c aad nonce ciphertext =
      .ok ((hmacSum c.hash c.integrityKey (authInput aad nonce ciphertext)).take
        c.tagsize.toNat) := by
  rw [ComputeAuthTag_eq]
  unfold sliceTo
  rw [if_neg]
  have := hh c.hash c.integrityKey (authInput aad nonce ciphertext)
  unfold len
  omega

/-! ## Construction -/

/-- `New` with its two slice expressions evaluated: they never abort, because
`len(key)/2` is within the bounds of `key`. -/
theorem New_eq (key : List Byte) (f : BlockCipherFunc) :
    New key f =
      match f (key.drop (key.length / 2)) with
      | .error ciphererr => .error (.err (.blockCipherFunc ciphererr))
      | .ok bc =>
        if key.length / 2 = 16 then .ok (contextOf key bc .sha256)
        else if key.length / 2 = 24 then .ok (contextOf key bc .sha384)
        else if key.length / 2 = 32 then .ok (contextOf key bc .sha512)
        else .error (.err (.unsupportedKeySize ((key.length / 2 : Nat) : Int))) := by
  have hk : (len key).tdiv 2 = ((key.length / 2 : Nat) : Int) := by
    unfold len; exact (Int.ofNat_tdiv _ _).symm
  have hle : key.length / 2 ≤ key.length := Nat.div_le_self _ _
  unfold New
  simp only [hk]
  unfold sliceTo sliceFrom len
  rw [if_neg (by omega), if_neg (by omega)]
  simp only [Int.toNat_ofNat]
  cases f (key.drop (key.length / 2)) with
  | error e => rfl
  | ok bc =>
    simp only [contextOf]
    by_cases h16 : key.length / 2 = 16
    · simp [h16]
    · by_cases h24 : key.length / 2 = 24
      · simp [h24]
      · by_cases h32 : key.length / 2 = 32
        · simp [h32]
        · have e16 : ¬ ((key.length / 2 : Nat) : Int) = 16 := by omega
          have e24 : ¬ ((key.length / 2 : Nat) : Int) = 24 := by omega
          have e32 : ¬ ((key.length / 2 : Nat) : Int) = 32 := by omega
          rw [if_neg e16, if_neg e24, if_neg e32, if_neg h16, if_neg h24, if_neg h32]

/-- What is known of a context that `New` returned. -/
theorem New_ok_inv {key : List Byte} {f : BlockCipherFunc} {c : Hmac}
    (h : New key f = .ok c) :
    ∃ bc, f (key.drop (key.length / 2)) = .ok bc ∧
      ((key.length / 2 = 16 ∧ c = contextOf key bc .sha256) ∨
       (key.length / 2 = 24 ∧ c = contextOf key bc .sha384) ∨
       (key.length / 2 = 32 ∧ c = contextOf key bc .sha512)) := by
  rw [New_eq] at h
  cases hf : f (key.drop (key.length / 2)) with
  | error e => rw [hf] at h; simp at h
  | ok bc =>
    rw [hf] at h
    refine ⟨bc, rfl, ?_⟩
    simp only at h
    by_cases h16 : key.length / 2 = 16
    · rw [if_pos h16] at h
      exact Or.inl ⟨h16, (Except.ok.inj h).symm⟩
    · rw [if_neg h16] at h
      by_cases h24 : key.length / 2 = 24
      · rw [if_pos h24] at h
        exact Or.inr (Or.inl ⟨h24, (Except.ok.inj h).symm⟩)
      · rw [if_neg h24] at h
        by_cases h32 : key.length / 2 = 32
        · rw [if_pos h32] at h
          exact Or.inr (Or.inr ⟨h32, (Except.ok.inj h).symm⟩)
        · rw [if_neg h32] at h
          simp at h

/-- The size invariants of a context built by `New`: `keysize` and `tagsize` are the
same half-length, one of 16, 24, 32, and the selected digest is at least that long. -/
theorem New_sizes {key : List Byte} {f : BlockCipherFunc} {c : Hmac}
    (h : New key f = .ok c) :
    c.keysize = c.tagsize ∧ (c.tagsize = 16 ∨ c.tagsize = 24 ∨ c.tagsize = 32) ∧
      c.tagsize ≤ (c.hash.size : Int) := by
  obtain ⟨bc, -, h16 | h24 | h32⟩ := New_ok_inv h
  · obtain ⟨hk, rfl⟩ := h16
    simp [contextOf, hk, HashAlg.size]
  · obtain ⟨hk, rfl⟩ := h24
    simp [contextOf, hk, HashAlg.size]
  · obtain ⟨hk, rfl⟩ := h32
    simp [contextOf, hk, HashAlg.size]

/-! ## CBC mode -/

theorem byte_xor_cancel (a b : Byte) : (a ^^^ b) ^^^ b = a := by
  apply Fin.ext
  have hv : ∀ x y : Byte, (x ^^^ y).val = x.val ^^^ y.val := by
    intro x y
    show (x.val ^^^ y.val) % 256 = _
    exact Nat.mod_eq_of_lt (Nat.xor_lt_two_pow (n := 8) x.isLt y.isLt)
  rw [hv, hv, Nat.xor_assoc, Nat.xor_self, Nat.xor_zero]

theorem xorBytes_length (x y : List Byte) :
    (xorBytes x y).length = min x.length y.length := by
  simp [xorBytes]

theorem xorBytes_cancel (x y : List Byte) (h : x.length ≤ y.length) :
    xorBytes (xorBytes x y) y = x := by
  induction x generalizing y with
  | nil => simp [xorBytes]
  | cons a x ih =>
    cases y with
    | nil => simp at h
    | cons b y =>
      have := ih y (by simpa using h)
      simp only [xorBytes, List.zipWith_cons_cons] at this ⊢
      rw [byte_xor_cancel, this]

/-- The guarantees of a well-formed cipher, with the block size as a `Nat`. -/
theorem Block.WellFormed.nat {b : Block} (hb : b.WellFormed) (x : List Byte)
    (hx : x.length = b.blockSize.toNat) :
    (b.encrypt x).length = b.blockSize.toNat ∧ (b.decrypt x).length = b.blockSize.toNat ∧
      b.decrypt (b.encrypt x) = x := by
  obtain ⟨hpos, hlaw⟩ := hb
  have hx' : len x = b.blockSize := by unfold len; omega
  obtain ⟨h1, h2, h3⟩ := hlaw x hx'
  unfold len at h1 h2
  exact ⟨by omega, by omega, h3⟩

theorem cbcEncryptLoop_length (b : Block) (hb : b.WellFormed) (k : Nat) (iv src : List Byte)
    (hiv : iv.length = b.blockSize.toNat) (hsrc : src.length = k * b.blockSize.toNat) :
    (cbcEncryptLoop b b.blockSize.toNat k iv src).length = k * b.blockSize.toNat := by
  induction k generalizing iv src with
  | zero => simp [cbcEncryptLoop]
  | succ k ih =>
    have hle : b.blockSize.toNat ≤ src.length := by
      rw [hsrc, Nat.succ_mul]; omega
    have hx : (xorBytes (src.take b.blockSize.toNat) iv).length = b.blockSize.toNat := by
      rw [xorBytes_length, List.length_take]; omega
    have hc := (hb.nat _ hx).1
    have hrest := ih (b.encrypt (xorBytes (src.take b.blockSize.toNat) iv))
      (src.drop b.blockSize.toNat) hc (by rw [List.length_drop, hsrc, Nat.succ_mul]; omega)
    simp only [cbcEncryptLoop, List.length_append, hc, hrest, Nat.succ_mul]
    omega

/-- CBC decryption inverts CBC encryption under the same cipher and IV. -/
theorem cbcDecryptLoop_cbcEncryptLoop (b : Block) (hb : b.WellFormed) (k : Nat)
    (iv src : List Byte) (hiv : iv.length = b.blockSize.toNat)
    (hsrc : src.length = k * b.blockSize.toNat) :
    cbcDecryptLoop b b.blockSize.toNat k iv (cbcEncryptLoop b b.blockSize.toNat k iv src)
      = src := by
  induction k generalizing iv src with
  | zero =>
    have : src = [] := List.length_eq_zero.mp (by simpa using hsrc)
    simp [cbcEncryptLoop, cbcDecryptLoop, this]
  | succ k ih =>
    have hle : b.blockSize.toNat ≤ src.length := by
      rw [hsrc, Nat.succ_mul]; omega
    have htake : (src.take b.blockSize.toNat).length = b.blockSize.toNat := by
      rw [List.length_take]; omega
    have hx : (xorBytes (src.take b.blockSize.toNat) iv).length = b.blockSize.toNat := by
      rw [xorBytes_length]; omega
    obtain ⟨hc, -, hdec⟩ := hb.nat _ hx
    have hrest := ih (b.encrypt (xorBytes (src.take b.blockSize.toNat) iv))
      (src.drop b.blockSize.toNat) hc (by rw [List.length_drop, hsrc, Nat.succ_mul]; omega)
    simp only [cbcEncryptLoop, cbcDecryptLoop]
    rw [List.take_left' hc, List.drop_left' hc, hdec, hrest,
      xorBytes_cancel _ _ (by omega), List.take_append_drop]

/-- On a whole number of blocks and with a one-block IV the CBC encrypter does not
abort; encrypting in place replaces the whole buffer. -/
theorem cbcEncrypt_ok (b : Block) (hpos : 0 < b.blockSize) (iv src : List Byte)
    (hiv : len iv = b.blockSize) (hsrc : len src % b.blockSize = 0) :
    cbcEncrypt b iv src src =
      .ok (cbcEncryptLoop b b.blockSize.toNat (src.length / b.blockSize.toNat) iv src) := by
  have hmod : (len src).tmod b.blockSize = len src % b.blockSize :=
    Int.tmod_eq_emod (len_nonneg src) (by omega)
  unfold cbcEncrypt
  rw [if_neg (by omega), if_neg (by omega), if_neg (by rw [hmod]; omega), if_neg (by omega)]
  simp

/-- On a whole number of blocks, with a one-block IV and an output buffer of the
input's length, the CBC decrypter does not abort and fills the whole buffer. -/
theorem cbcDecrypt_ok (b : Block) (hpos : 0 < b.blockSize) (iv dst src : List Byte)
    (hiv : len iv = b.blockSize) (hsrc : len src % b.blockSize = 0)
    (hdst : dst.length = src.length) :
    cbcDecrypt b iv dst src =
      .ok (cbcDecryptLoop b b.blockSize.toNat (src.length / b.blockSize.toNat) iv src) := by
  have hmod : (len src).tmod b.blockSize = len src % b.blockSize :=
    Int.tmod_eq_emod (len_nonneg src) (by omega)
  unfold cbcDecrypt
  rw [if_neg (by omega), if_neg (by omega), if_neg (by rw [hmod]; omega),
    if_neg (by unfold len; omega)]
  simp [← hdst]

/-- Number of blocks of a buffer that is a whole number of blocks long. -/
theorem blocks_of_mod {bs : Int} (hpos : 0 < bs) (src : List Byte)
    (hsrc : len src % bs = 0) :
    src.length = (src.length / bs.toNat) * bs.toNat := by
  have hbs : ((bs.toNat : Nat) : Int) = bs := Int.toNat_of_nonneg (by omega)
  have h : ((src.length % bs.toNat : Nat) : Int) = 0 := by
    rw [Int.natCast_mod, hbs]; exact hsrc
  have h' : src.length % bs.toNat = 0 := by exact_mod_cast h
  exact (Nat.div_mul_cancel (Nat.dvd_of_mod_eq_zero h')).symm

/-! ## The output buffer helper -/

/-- When `n` exceeds `len(dst)` a new zero-filled buffer of length `n` receives `dst`. -/
theorem ensureSize_grow (dst : List Byte) (n : Int) (h : len dst < n) :
    ensureSize dst n = .ok (dst ++ List.replicate (n.toNat - dst.length) 0) := by
  have h0 := len_nonneg dst
  unfold ensureSize
  simp only
  rw [if_pos (by omega), makeBytes_of_nonneg (by omega)]
  simp only
  rw [copyAt_fresh_zero dst _ (by unfold len at h; omega)]

/-- When `n` does not exceed `len(dst)` the result is `dst` itself. -/
theorem ensureSize_keep (dst : List Byte) (n : Int) (h : n ≤ len dst) :
    ensureSize dst n = .ok dst := by
  unfold ensureSize
  simp only
  rw [if_neg (by omega)]

/-- The result of `ensureSize` for `n ≥ len(dst)`, in one formula. -/
theorem ensureSize_ge (dst : List Byte) (n : Int) (h : len dst ≤ n) :
    ensureSize dst n = .ok (dst ++ List.replicate (n.toNat - dst.length) 0) := by
  by_cases hlt : len dst < n
  · exact ensureSize_grow dst n hlt
  · have : n.toNat - dst.length = 0 := by unfold len at h hlt; omega
    rw [ensureSize_keep dst n (by omega), this]
    simp

theorem sliceFrom_ok (buf : List Byte) (lo : Nat) (h : lo ≤ buf.length) :
    sliceFrom buf (lo : Int) = .ok (buf.drop lo) := by
  unfold sliceFrom len
  rw [if_neg (by omega)]
  simp

theorem sliceTo_ok (buf : List Byte) (hi : Nat) (h : hi ≤ buf.length) :
    sliceTo buf (hi : Int) = .ok (buf.take hi) := by
  unfold sliceTo len
  rw [if_neg (by omega)]
  simp

/-- The two `copy` calls that end `Seal` write `a` and then `b` after `dst`. -/
theorem copyAt_two (dst a b : List Byte) :
    (copyAt (copyAt (dst ++ List.replicate (a.length + b.length) 0) dst.length a).1
      (dst.length + (copyAt (dst ++ List.replicate (a.length + b.length) 0) dst.length a).2)
      b).1 = dst ++ a ++ b := by
  rw [copyAt_fresh dst a _ (by omega)]
  simp only [Nat.add_sub_cancel_left]
  have := copyAt_fresh (dst ++ a) b b.length (Nat.le_refl _)
  rw [List.length_append] at this
  rw [this]
  simp

/-! ## Seal -/

theorem bind_ok {α β : Type} (a : α) (f : α → Result β) :
    ((Except.ok a : Result α) >>= f) = f a := rfl

theorem bind_error {α β : Type} (e : Fault) (f : α → Result β) :
    ((Except.error e : Result α) >>= f) = .error e := rfl

theorem len_paddedOf_mod (plaintext : List Byte) {n : Int} (hn : 1 ≤ n) :
    len (paddedOf plaintext n) % n = 0 := by
  have hb := padLen_bounds plaintext hn
  have : len (paddedOf plaintext n) = len plaintext + padLen plaintext n := by
    unfold paddedOf len
    simp only [List.length_append, List.length_replicate]
    omega
  rw [this]
  exact len_pad_mod plaintext n

/-- `Seal` in closed form: no step of it aborts, and it returns
`dst ++ ciphertext ++ tag`. -/
theorem Seal_eq (hmacSum : HmacSum) (hh : hmacSum.WellFormed) (c : Hmac)
    (ht0 : 0 ≤ c.tagsize) (ht1 : c.tagsize ≤ (c.hash.size : Int))
    (hpos : 0 < c.blockCipher.blockSize)
    (dst nonce plaintext data : List Byte) (hnonce : len nonce = c.blockCipher.blockSize) :
    Seal hmacSum c dst nonce plaintext data =
      .ok (dst ++ sealCiphertext c nonce plaintext ++ sealTag hmacSum c nonce plaintext data) := by
  have hp := len_nonneg plaintext
  unfold Seal
  simp only
  rw [makeBytes_of_nonneg (by unfold Hmac.Overhead; omega), bind_ok]
  have hs : sliceTo (List.replicate (len plaintext + c.Overhead).toNat 0) (len plaintext)
      = .ok (List.replicate plaintext.length 0) := by
    have := sliceTo_ok (List.replicate (len plaintext + c.Overhead).toNat 0) plaintext.length
      (by unfold Hmac.Overhead len at *; simp only [List.length_replicate]; omega)
    have hmin : min plaintext.length (len plaintext + c.Overhead).toNat = plaintext.length := by
      unfold Hmac.Overhead len at *; omega
    show sliceTo (List.replicate (len plaintext + c.Overhead).toNat 0)
      ((plaintext.length : Nat) : Int) = _
    rw [this, List.take_replicate, hmin]
  rw [hs, bind_ok]
  have hc : (copyAt (List.replicate plaintext.length 0) 0 plaintext).1 = plaintext := by
    rw [copyAt_fresh_zero plaintext _ (Nat.le_refl _)]; simp
  rw [hc, pad_eq plaintext (by omega), bind_ok]
  change (cbcEncrypt c.blockCipher nonce (paddedOf plaintext c.blockCipher.blockSize)
    (paddedOf plaintext c.blockCipher.blockSize) >>= _) = _
  rw [cbcEncrypt_ok c.blockCipher hpos nonce _ hnonce (len_paddedOf_mod plaintext (by omega)),
    bind_ok]
  change (panicOnErr (ComputeAuthTag hmacSum c data nonce (sealCiphertext c nonce plaintext))
    >>= _) = _
  rw [ComputeAuthTag_ok hmacSum hh c ht0 ht1]
  simp only [panicOnErr]
  rw [bind_ok]
  change (ensureSize dst (len dst + len (sealCiphertext c nonce plaintext)
    + len (sealTag hmacSum c nonce plaintext data)) >>= _) = _
  have h1 := len_nonneg (sealCiphertext c nonce plaintext)
  have h2 := len_nonneg (sealTag hmacSum c nonce plaintext data)
  rw [ensureSize_ge dst _ (by omega), bind_ok]
  have hm : (len dst + len (sealCiphertext c nonce plaintext)
      + len (sealTag hmacSum c nonce plaintext data)).toNat - dst.length
      = (sealCiphertext c nonce plaintext).length
        + (sealTag hmacSum c nonce plaintext data).length := by
    unfold len; omega
  rw [hm]
  change (sliceFrom _ ((dst.length : Nat) : Int) >>= _) = _
  rw [sliceFrom_ok _ _ (by simp), bind_ok]
  exact congrArg Except.ok
    (copyAt_two dst (sealCiphertext c nonce plaintext) (sealTag hmacSum c nonce plaintext data))

/-! ## Open -/

theorem wrapErr_ok {α : Type} (w : Err → Err) (a : α) :
    wrapErr w (.ok a : Result α) = .ok a := rfl

/-- `Open` on an input that passes the length and alignment checks: the tag is
recomputed and compared, and only when it matches is anything decrypted. -/
theorem Open_framed (hmacSum : HmacSum) (hh : hmacSum.WellFormed) (c : Hmac)
    (ht0 : 0 ≤ c.tagsize) (ht1 : c.tagsize ≤ (c.hash.size : Int))
    (hpos : 0 < c.blockCipher.blockSize)
    (dst nonce input data : List Byte)
    (hlen : c.keysize ≤ len input) (htag : c.tagsize ≤ len input)
    (hmod : (len input - c.tagsize) % c.blockCipher.blockSize = 0) :
    Open hmacSum c dst nonce input data =
      if (hmacSum c.hash c.integrityKey
            (authInput data nonce (input.take (tagStart c input)))).take c.tagsize.toNat
          = input.drop (tagStart c input)
      then openVerified c dst nonce (input.take (tagStart c input))
      else .error (.err .tagMismatch) := by
  have hoff : len input - c.tagsize = ((tagStart c input : Nat) : Int) := by
    unfold tagStart; omega
  have hle : tagStart c input ≤ input.length := by
    unfold tagStart len at *; omega
  have htm : (len input - c.tagsize).tmod c.blockCipher.blockSize
      = (len input - c.tagsize) % c.blockCipher.blockSize :=
    Int.tmod_eq_emod (by omega) (by omega)
  unfold Open
  simp only
  rw [if_neg (by omega), if_neg (by omega), if_neg (by rw [htm, hmod]; simp)]
  rw [hoff, sliceFrom_ok _ _ hle, bind_ok, sliceTo_ok _ _ hle, bind_ok,
    sliceTo_ok _ _ (by rw [List.length_take]; omega), bind_ok, List.take_take, Nat.min_self,
    ComputeAuthTag_ok hmacSum hh c ht0 ht1]
  rw [wrapErr_ok, bind_ok]
  simp only [ConstantTimeCompare]
  by_cases heq : (hmacSum c.hash c.integrityKey
      (authInput data nonce (input.take (tagStart c input)))).take c.tagsize.toNat
      = input.drop (tagStart c input)
  · simp only [heq, ↓reduceIte, ne_eq, not_true_eq_false]
    rw [makeBytes_of_nonneg (by omega), bind_ok]
    simp only [Int.toNat_ofNat]
    have : tagStart c input = (input.take (tagStart c input)).length := by
      rw [List.length_take]; omega
    unfold openVerified
    rw [← this]
  · simp only [heq, ↓reduceIte, ne_eq, zero_ne_one, not_false_eq_true]

theorem paddedOf_length (plaintext : List Byte) {n : Int} (hn : 1 ≤ n) :
    ((paddedOf plaintext n).length : Int) = len plaintext + padLen plaintext n := by
  have hb := padLen_bounds plaintext hn
  unfold paddedOf len
  simp only [List.length_append, List.length_replicate]
  omega

theorem sealCiphertext_length (c : Hmac) (hb : c.blockCipher.WellFormed)
    (nonce plaintext : List Byte) (hnonce : len nonce = c.blockCipher.blockSize) :
    (sealCiphertext c nonce plaintext).length
      = (paddedOf plaintext c.blockCipher.blockSize).length := by
  have hpos := hb.1
  have hblocks := blocks_of_mod hpos (paddedOf plaintext c.blockCipher.blockSize)
    (len_paddedOf_mod plaintext (by omega))
  unfold sealCiphertext
  rw [cbcEncryptLoop_length c.blockCipher hb _ nonce _ (by unfold len at hnonce; omega) hblocks]
  exact hblocks.symm

theorem sealTag_length (hmacSum : HmacSum) (hh : hmacSum.WellFormed) (c : Hmac)
    (ht0 : 0 ≤ c.tagsize) (ht1 : c.tagsize ≤ (c.hash.size : Int))
    (nonce plaintext data : List Byte) :
    ((sealTag hmacSum c nonce plaintext data).length : Int) = c.tagsize := by
  unfold sealTag
  rw [List.length_take, hh]
  omega

/-- `Open` on a sealed envelope: the checks pass, the tag verifies, decryption
returns the padded plaintext, and what remains is to unpad it and copy it out. -/
theorem Open_sealed (hmacSum : HmacSum) (hh : hmacSum.WellFormed) (c : Hmac)
    (hks : c.keysize = c.tagsize)
    (ht0 : 0 ≤ c.tagsize) (ht1 : c.tagsize ≤ (c.hash.size : Int))
    (hb : c.blockCipher.WellFormed)
    (dst nonce plaintext data : List Byte) (hnonce : len nonce = c.blockCipher.blockSize) :
    Open hmacSum c dst nonce
        (sealCiphertext c nonce plaintext ++ sealTag hmacSum c nonce plaintext data) data
      = openFinish c dst (paddedOf plaintext c.blockCipher.blockSize) := by
  have hpos := hb.1
  have hct := sealCiphertext_length c hb nonce plaintext hnonce
  have htl := sealTag_length hmacSum hh c ht0 ht1 nonce plaintext data
  have hpm := len_paddedOf_mod plaintext (n := c.blockCipher.blockSize) (by omega)
  have hlen : len (sealCiphertext c nonce plaintext ++ sealTag hmacSum c nonce plaintext data)
      = len (sealCiphertext c nonce plaintext) + c.tagsize := by
    rw [len_append]; unfold len; omega
  have hstart : tagStart c
      (sealCiphertext c nonce plaintext ++ sealTag hmacSum c nonce plaintext data)
      = (sealCiphertext c nonce plaintext).length := by
    unfold tagStart; rw [hlen]; unfold len; omega
  have hctmod : len (sealCiphertext c nonce plaintext) % c.blockCipher.blockSize = 0 := by
    unfold len at hpm ⊢; rw [hct]; exact hpm
  have h0 := len_nonneg (sealCiphertext c nonce plaintext)
  rw [Open_framed hmacSum hh c ht0 ht1 hpos dst nonce _ data (by omega) (by omega)
    (by rw [hlen]; simpa using hctmod)]
  rw [hstart, List.take_left' rfl, List.drop_left' rfl]
  have htageq : (hmacSum c.hash c.integrityKey
      (authInput data nonce (sealCiphertext c nonce plaintext))).take c.tagsize.toNat
      = sealTag hmacSum c nonce plaintext data := rfl
  rw [if_pos htageq]
  unfold openVerified
  rw [cbcDecrypt_ok c.blockCipher hpos nonce _ _ hnonce hctmod (by simp), bind_ok]
  have hblocks := blocks_of_mod hpos (paddedOf plaintext c.blockCipher.blockSize) hpm
  have hrt := cbcDecryptLoop_cbcEncryptLoop c.blockCipher hb _ nonce
    (paddedOf plaintext c.blockCipher.blockSize) (by unfold len at hnonce; omega) hblocks
  rw [hct]
  unfold sealCiphertext
  rw [hrt]
  rfl

theorem sliceFrom_inv {buf out : List Byte} {lo : Int} (h : sliceFrom buf lo = .ok out) :
    out = buf.drop lo.toNat := by
  unfold sliceFrom at h
  split_ifs at h
  exact (Except.ok.inj h).symm

theorem sliceTo_inv {buf out : List Byte} {hi : Int} (h : sliceTo buf hi = .ok out) :
    out = buf.take hi.toNat := by
  unfold sliceTo at h
  split_ifs at h
  exact (Except.ok.inj h).symm

theorem wrapErr_ok_inv {α : Type} {w : Err → Err} {r : Result α} {a : α}
    (h : wrapErr w r = .ok a) : r = .ok a := by
  cases r with
  | ok b => exact h
  | error e => cases e <;> simp [wrapErr] at h

/-- Whenever `Open` gets as far as decrypting, that is, whenever it returns a
plaintext or the error of `unpad`, the tag it received is the tag it recomputed. -/
theorem Open_tag_verified (hmacSum : HmacSum) (c : Hmac) (dst nonce input data : List Byte)
    (h : (∃ p, Open hmacSum c dst nonce input data = .ok p) ∨
      (∃ e, Open hmacSum c dst nonce input data = .error (.err (.generatePlaintext e)))) :
    ComputeAuthTag hmacSum c data nonce (input.take (tagStart c input))
      = .ok (input.drop (tagStart c input)) := by
  unfold Open at h
  simp only at h
  by_cases h1 : len input < c.keysize
  · rw [if_pos h1] at h
    rcases h with ⟨p, h⟩ | ⟨e, h⟩ <;> simp at h
  rw [if_neg h1] at h
  by_cases h2 : c.blockCipher.blockSize = 0
  · rw [if_pos h2] at h
    rcases h with ⟨p, h⟩ | ⟨e, h⟩ <;> simp at h
  rw [if_neg h2] at h
  by_cases h3 : (len input - c.tagsize).tmod c.blockCipher.blockSize ≠ 0
  · rw [if_pos h3] at h
    rcases h with ⟨p, h⟩ | ⟨e, h⟩ <;> simp at h
  rw [if_neg h3] at h
  cases hs1 : sliceFrom input (len input - c.tagsize) with
  | error e1 =>
    rw [hs1, bind_error] at h
    unfold sliceFrom at hs1
    split_ifs at hs1
    cases hs1
    rcases h with ⟨p, h⟩ | ⟨e, h⟩ <;> simp at h
  | ok tag =>
    rw [hs1, bind_ok] at h
    cases hs2 : sliceTo input (len input - c.tagsize) with
    | error e2 =>
      rw [hs2, bind_error] at h
      unfold sliceTo at hs2
      split_ifs at hs2
      cases hs2
      rcases h with ⟨p, h⟩ | ⟨e, h⟩ <;> simp at h
    | ok ct =>
      rw [hs2, bind_ok] at h
      cases hs3 : sliceTo ct (len input - c.tagsize) with
      | error e3 =>
        rw [hs3, bind_error] at h
        unfold sliceTo at hs3
        split_ifs at hs3
        cases hs3
        rcases h with ⟨p, h⟩ | ⟨e, h⟩ <;> simp at h
      | ok ct' =>
        rw [hs3, bind_ok] at h
        have htag := sliceFrom_inv hs1
        have hct := sliceTo_inv hs2
        have hct' := sliceTo_inv hs3
        have hct'' : ct' = input.take (tagStart c input) := by
          rw [hct', hct, List.take_take, Nat.min_self]; rfl
        cases hw : wrapErr Err.computeAuthTag (ComputeAuthTag hmacSum c data nonce ct') with
        | error e4 =>
          rw [hw, bind_error] at h
          cases hcat : ComputeAuthTag hmacSum c data nonce ct' with
          | ok t => rw [hcat] at hw; simp [wrapErr] at hw
          | error e5 =>
            rw [hcat] at hw
            cases e5 with
            | err e6 =>
              simp only [wrapErr] at hw
              cases hw
              rcases h with ⟨p, h⟩ | ⟨e, h⟩ <;> simp at h
            | panic p6 =>
              simp only [wrapErr] at hw
              cases hw
              rcases h with ⟨p, h⟩ | ⟨e, h⟩ <;> simp at h
        | ok expected =>
          rw [hw, bind_ok] at h
          have hcat := wrapErr_ok_inv hw
          by_cases heq : expected = tag
          · rw [← hct'', hcat, heq, htag]; rfl
          · have hne : ConstantTimeCompare expected tag ≠ 1 := by
              unfold ConstantTimeCompare; rw [if_neg heq]; decide
            rw [if_pos hne] at h
            rcases h with ⟨p, h⟩ | ⟨e, h⟩ <;> simp at h

/-! ## The concrete collaborators are well formed -/

theorem shiftBlock_wellFormed (key : List Byte) : (shiftBlock key).WellFormed := by
  refine ⟨show (0 : Int) < 16 by decide, ?_⟩
  intro x hx
  have hx' : len x = 16 := hx
  refine ⟨?_, ?_, ?_⟩
  · show len ((x.map (fun b => b + (key.sum + 1))).reverse) = 16
    unfold len at hx' ⊢
    simpa using hx'
  · show len ((x.map (fun b => b - (key.sum + 1))).reverse) = 16
    unfold len at hx' ⊢
    simpa using hx'
  · show (((x.map (fun b => b + (key.sum + 1))).reverse).map
      (fun b => b - (key.sum + 1))).reverse = x
    rw [List.map_reverse, List.reverse_reverse, List.map_map]
    conv_rhs => rw [← List.map_id x]
    apply List.map_congr_left
    intro a _
    simp

theorem sumHmac_wellFormed : sumHmac.WellFormed := by
  intro h key msg
  simp [sumHmac]

theorem New_zeroContext : New (zeros 32) shiftCipher = .ok zeroContext := by
  rw [New_eq]
  rfl

theorem New_strict_zeroContext : New (zeros 32) strictCipher = .ok zeroContext := by
  rw [New_eq]
  rfl

theorem strictCipher_lengths (k : List Byte) (bc : Block) (h : strictCipher k = .ok bc) :
    k.length = 16 ∨ k.length = 24 ∨ k.length = 32 := by
  unfold strictCipher at h
  by_cases hk : k.length = 16 ∨ k.length = 24 ∨ k.length = 32
  · exact hk
  · rw [if_neg hk] at h
    cases h

/-! ## Claims -/

/-- Claim C5 (code defect): the padding round trip fails on the one-byte buffer `[0x0f]` with
block size 16.  `pad` appends fifteen bytes `0x0f`; `unpad` then counts the whole
trailing run of sixteen bytes equal to the last byte, finds `16 ≠ 15`, and returns the
"invalid padding" error instead of the original buffer. -/
theorem unpad_pad_fails :
    pad [15] 16 = .ok (List.replicate 16 15) ∧
      unpad (List.replicate 16 15) 16 = .error (.err .invalidPadding) := by
  constructor <;> decide

/-- Claim C6 (counterexample): the sixteen-byte all-zero buffer is aligned for block size 16,
yet `pad` does not return it unchanged: it returns it followed by a full block of
sixteen bytes `0x10`. -/
theorem pad_aligned_counterexample :
    len (zeros 16) % 16 = 0 ∧
      pad (zeros 16) 16 = .ok (zeros 16 ++ List.replicate 16 16) ∧
      pad (zeros 16) 16 ≠ .ok (zeros 16) := by
  refine ⟨by decide, by decide, by decide⟩

/-- Claim C6 (amended): for every block size `n ≥ 1` and every buffer, `pad` returns the
buffer followed by `k = n - len(buf) % n` bytes, each `byte(k)`, with `1 ≤ k ≤ n`; on
an aligned buffer `k = n`, a full block; `pad` never returns its input unchanged. -/
theorem pad_always_appends (buf : List Byte) (n : Int) (hn : 1 ≤ n) :
    pad buf n = .ok (buf ++ List.replicate (padLen buf n).toNat (byteOfInt (padLen buf n))) ∧
      1 ≤ padLen buf n ∧ padLen buf n ≤ n ∧
      (len buf % n = 0 → padLen buf n = n) ∧
      pad buf n ≠ .ok buf := by
  have hb := padLen_bounds buf hn
  refine ⟨pad_eq buf hn, hb.1, hb.2, ?_, ?_⟩
  · intro h; unfold padLen; omega
  · rw [pad_eq buf hn]
    intro h
    have hl := congrArg List.length (Except.ok.inj h)
    simp only [List.length_append, List.length_replicate] at hl
    omega

theorem pad_always_appends_witness :
    (1 : Int) ≤ 16 ∧
      pad (zeros 16) 16
        = .ok (zeros 16 ++ List.replicate (padLen (zeros 16) 16).toNat
            (byteOfInt (padLen (zeros 16) 16))) ∧
      padLen (zeros 16) 16 = 16 :=
  ⟨by decide, (pad_always_appends (zeros 16) 16 (by decide)).1,
    (pad_always_appends (zeros 16) 16 (by decide)).2.2.2.1 (by decide)⟩

/-- Claim C8: when the half-length `len(key)/2` is not 16, 24 or 32, `New` returns an
error, and so no context, whatever the block-cipher factory does. -/
theorem New_rejects_half_length (key : List Byte) (f : BlockCipherFunc)
    (h : key.length / 2 ≠ 16 ∧ key.length / 2 ≠ 24 ∧ key.length / 2 ≠ 32) :
    ∃ e : Err, New key f = .error (.err e) := by
  rw [New_eq]
  cases f (key.drop (key.length / 2)) with
  | error cause => exact ⟨_, rfl⟩
  | ok bc =>
    simp only
    rw [if_neg h.1, if_neg h.2.1, if_neg h.2.2]
    exact ⟨_, rfl⟩

theorem New_rejects_half_length_witness :
    ((zeros 40).length / 2 ≠ 16 ∧ (zeros 40).length / 2 ≠ 24 ∧ (zeros 40).length / 2 ≠ 32) ∧
      ∃ e : Err, New (zeros 40) shiftCipher = .error (.err e) :=
  ⟨by decide, New_rejects_half_length (zeros 40) shiftCipher (by decide)⟩

/-- Claim C9 (counterexample): with a factory that accepts any key length, `New` returns a
context for a 33-byte key, whose length is none of 32, 48, 64. -/
theorem New_accepts_odd_key :
    (∃ c, New (zeros 33) shiftCipher = .ok c) ∧
      ¬ ((zeros 33).length = 32 ∨ (zeros 33).length = 48 ∨ (zeros 33).length = 64) := by
  refine ⟨⟨contextOf (zeros 33) (shiftBlock (zeros 17)) .sha256, ?_⟩, by decide⟩
  rw [New_eq]
  rfl

/-- Claim C9 (amended): if `New` returns a context then the half-length `len(key)/2` is 16,
24 or 32, so `len(key)` is one of 32, 33, 48, 49, 64, 65, and the factory accepted
the part `key[len(key)/2:]`; if the factory accepts only keys of 16, 24 or 32 bytes,
then `len(key)` is 32, 48 or 64. -/
theorem New_accepted_lengths (key : List Byte) (f : BlockCipherFunc) (c : Hmac)
    (h : New key f = .ok c) :
    (key.length / 2 = 16 ∨ key.length / 2 = 24 ∨ key.length / 2 = 32) ∧
      (key.length = 32 ∨ key.length = 33 ∨ key.length = 48 ∨ key.length = 49 ∨
        key.length = 64 ∨ key.length = 65) ∧
      f (key.drop (key.length / 2)) = .ok c.blockCipher ∧
      ((∀ k bc, f k = .ok bc → k.length = 16 ∨ k.length = 24 ∨ k.length = 32) →
        key.length = 32 ∨ key.length = 48 ∨ key.length = 64) := by
  obtain ⟨bc, hf, hc⟩ := New_ok_inv h
  have hbc : c.blockCipher = bc := by
    rcases hc with ⟨-, rfl⟩ | ⟨-, rfl⟩ | ⟨-, rfl⟩ <;> rfl
  have hhalf : key.length / 2 = 16 ∨ key.length / 2 = 24 ∨ key.length / 2 = 32 := by
    rcases hc with ⟨hk, -⟩ | ⟨hk, -⟩ | ⟨hk, -⟩
    · exact Or.inl hk
    · exact Or.inr (Or.inl hk)
    · exact Or.inr (Or.inr hk)
  refine ⟨hhalf, by omega, by rw [hbc]; exact hf, ?_⟩
  intro hstrict
  have := hstrict _ _ hf
  rw [List.length_drop] at this
  omega

theorem New_accepted_lengths_witness :
    New (zeros 32) strictCipher = .ok zeroContext ∧
      (∀ k bc, strictCipher k = .ok bc → k.length = 16 ∨ k.length = 24 ∨ k.length = 32) ∧
      ((zeros 32).length = 32 ∨ (zeros 32).length = 48 ∨ (zeros 32).length = 64) :=
  ⟨New_strict_zeroContext, strictCipher_lengths,
    (New_accepted_lengths (zeros 32) strictCipher zeroContext New_strict_zeroContext).2.2.2
      strictCipher_lengths⟩

/-- Claim C10: for a key of 32, 48 or 64 bytes and a factory that succeeds on the second
half with cipher `bc`, `New` succeeds; the context's integrity key is the first half,
its block cipher is `bc`, `keysize` and `tagsize` both equal the half-length, and the
hash is SHA-256, SHA-384 or SHA-512 for halves of 16, 24 or 32 bytes. -/
theorem New_splits_key (key : List Byte) (f : BlockCipherFunc) (bc : Block)
    (hlen : key.length = 32 ∨ key.length = 48 ∨ key.length = 64)
    (hf : f (key.drop (key.length / 2)) = .ok bc) :
    ∃ c, New key f = .ok c ∧
      c.integrityKey = key.take (key.length / 2) ∧
      c.integrityKey.length = key.length / 2 ∧
      (key.drop (key.length / 2)).length = key.length / 2 ∧
      c.blockCipher = bc ∧
      c.keysize = ((key.length / 2 : Nat) : Int) ∧
      c.tagsize = ((key.length / 2 : Nat) : Int) ∧
      (key.length / 2 = 16 → c.hash = .sha256) ∧
      (key.length / 2 = 24 → c.hash = .sha384) ∧
      (key.length / 2 = 32 → c.hash = .sha512) := by
  have htake : (key.take (key.length / 2)).length = key.length / 2 := by
    rw [List.length_take]; omega
  have hdrop : (key.drop (key.length / 2)).length = key.length / 2 := by
    rw [List.length_drop]; omega
  rw [New_eq, hf]
  simp only
  rcases hlen with h | h | h
  · have hk : key.length / 2 = 16 := by omega
    rw [if_pos hk]
    exact ⟨_, rfl, rfl, htake, hdrop, rfl, rfl, rfl, fun _ => rfl,
      fun h' => by omega, fun h' => by omega⟩
  · have hk : key.length / 2 = 24 := by omega
    rw [if_neg (by omega), if_pos hk]
    exact ⟨_, rfl, rfl, htake, hdrop, rfl, rfl, rfl, fun h' => by omega,
      fun _ => rfl, fun h' => by omega⟩
  · have hk : key.length / 2 = 32 := by omega
    rw [if_neg (by omega), if_neg (by omega), if_pos hk]
    exact ⟨_, rfl, rfl, htake, hdrop, rfl, rfl, rfl, fun h' => by omega,
      fun h' => by omega, fun _ => rfl⟩

theorem New_splits_key_witness :
    ((zeros 32).length = 32 ∨ (zeros 32).length = 48 ∨ (zeros 32).length = 64) ∧
      shiftCipher ((zeros 32).drop ((zeros 32).length / 2)) = .ok (shiftBlock (zeros 16)) ∧
      ∃ c, New (zeros 32) shiftCipher = .ok c ∧
        c.integrityKey = (zeros 32).take ((zeros 32).length / 2) ∧
        c.integrityKey.length = (zeros 32).length / 2 ∧
        ((zeros 32).drop ((zeros 32).length / 2)).length = (zeros 32).length / 2 ∧
        c.blockCipher = shiftBlock (zeros 16) ∧
        c.keysize = (((zeros 32).length / 2 : Nat) : Int) ∧
        c.tagsize = (((zeros 32).length / 2 : Nat) : Int) ∧
        ((zeros 32).length / 2 = 16 → c.hash = .sha256) ∧
        ((zeros 32).length / 2 = 24 → c.hash = .sha384) ∧
        ((zeros 32).length / 2 = 32 → c.hash = .sha512) :=
  ⟨by decide, rfl, New_splits_key (zeros 32) shiftCipher (shiftBlock (zeros 16)) (by decide) rfl⟩

/-- Claim C7: `Open` rejects malformed framing.  An input shorter than the half-key length
gets the "too short" error; an input at least that long whose length minus `tagsize`
is not a multiple of the (non-zero) block size gets the "invalid length" error.  The
error is a function of the input's length alone, so every other input of that length,
with any `dst`, nonce and associated data, is rejected the same way. -/
theorem Open_rejects_malformed (hmacSum : HmacSum) (c : Hmac)
    (dst nonce input data : List Byte) :
    (len input < c.keysize →
      Open hmacSum c dst nonce input data = .error (.err .tooShort)) ∧
    (c.blockCipher.blockSize ≠ 0 → c.keysize ≤ len input →
      ¬ (c.blockCipher.blockSize ∣ len input - c.tagsize) →
      Open hmacSum c dst nonce input data =
        .error (.err (.invalidLength (len input - c.tagsize) c.blockCipher.blockSize))) ∧
    (c.blockCipher.blockSize ≠ 0 →
      (len input < c.keysize ∨ ¬ (c.blockCipher.blockSize ∣ len input - c.tagsize)) →
      ∀ dst' nonce' input' data' : List Byte, len input' = len input →
        (∃ e : Err, Open hmacSum c dst' nonce' input' data' = .error (.err e)) ∧
        Open hmacSum c dst' nonce' input' data' = Open hmacSum c dst nonce input data) := by
  have hshort : ∀ d n i a : List Byte, len i < c.keysize →
      Open hmacSum c d n i a = .error (.err .tooShort) := by
    intro d n i a h
    unfold Open
    rw [if_pos h]
  have hmis : ∀ d n i a : List Byte, c.blockCipher.blockSize ≠ 0 → c.keysize ≤ len i →
      ¬ (c.blockCipher.blockSize ∣ len i - c.tagsize) →
      Open hmacSum c d n i a =
        .error (.err (.invalidLength (len i - c.tagsize) c.blockCipher.blockSize)) := by
    intro d n i a hbs hlen hnd
    have hne : (len i - c.tagsize).tmod c.blockCipher.blockSize ≠ 0 :=
      fun h0 => hnd (Int.dvd_of_tmod_eq_zero h0)
    unfold Open
    simp only
    rw [if_neg (by omega), if_neg hbs, if_pos hne]
  refine ⟨hshort dst nonce input data, hmis dst nonce input data, ?_⟩
  intro hbs hbad dst' nonce' input' data' hl
  by_cases hs : len input < c.keysize
  · rw [hshort dst nonce input data hs, hshort dst' nonce' input' data' (by omega)]
    exact ⟨⟨_, rfl⟩, rfl⟩
  · have hnd : ¬ (c.blockCipher.blockSize ∣ len input - c.tagsize) := by
      rcases hbad with h | h
      · exact absurd h hs
      · exact h
    rw [hmis dst nonce input data hbs (by omega) hnd,
      hmis dst' nonce' input' data' hbs (by omega) (by rw [hl]; exact hnd), hl]
    exact ⟨⟨_, rfl⟩, rfl⟩

theorem Open_rejects_malformed_witness :
    (len (zeros 15) < zeroContext.keysize ∧
      Open sumHmac zeroContext [] (zeros 16) (zeros 15) [] = .error (.err .tooShort)) ∧
    (zeroContext.blockCipher.blockSize ≠ 0 ∧ zeroContext.keysize ≤ len (zeros 33) ∧
      ¬ (zeroContext.blockCipher.blockSize ∣ len (zeros 33) - zeroContext.tagsize) ∧
      Open sumHmac zeroContext [] (zeros 16) (zeros 33) [] =
        .error (.err (.invalidLength 17 16))) :=
  ⟨⟨by decide,
     (Open_rejects_malformed sumHmac zeroContext [] (zeros 16) (zeros 15) []).1 (by decide)⟩,
   ⟨by decide, by decide, by decide,
     (Open_rejects_malformed sumHmac zeroContext [] (zeros 16) (zeros 33) []).2.1
       (by decide) (by decide) (by decide)⟩⟩

/-- Claim C4: `Seal` returns `dst ++ ciphertext ++ tag` and does not fail.  For a context
built by `New`, a cipher with a positive block size and a nonce one block long, no step
of `Seal` aborts; the result is `dst` followed by the CBC encryption, with the nonce as
IV, of `pad(plaintext, blockSize)`, followed by `ComputeAuthTag(aad, nonce, ciphertext)`. -/
theorem Seal_returns_envelope (hmacSum : HmacSum) (hh : hmacSum.WellFormed)
    (key : List Byte) (f : BlockCipherFunc) (c : Hmac) (hnew : New key f = .ok c)
    (hpos : 0 < c.blockCipher.blockSize)
    (dst nonce plaintext data : List Byte) (hnonce : len nonce = c.blockCipher.blockSize) :
    ∃ padded ct tag : List Byte,
      pad plaintext c.blockCipher.blockSize = .ok padded ∧
      cbcEncrypt c.blockCipher nonce padded padded = .ok ct ∧
      ComputeAuthTag hmacSum c data nonce ct = .ok tag ∧
      Seal hmacSum c dst nonce plaintext data = .ok (dst ++ ct ++ tag) := by
  obtain ⟨hks, hts, hle⟩ := New_sizes hnew
  have ht0 : 0 ≤ c.tagsize := by omega
  refine ⟨paddedOf plaintext c.blockCipher.blockSize, sealCiphertext c nonce plaintext,
    sealTag hmacSum c nonce plaintext data, ?_, ?_, ?_, ?_⟩
  · exact pad_eq plaintext (by omega)
  · exact cbcEncrypt_ok c.blockCipher hpos nonce _ hnonce
      (len_paddedOf_mod plaintext (by omega))
  · exact ComputeAuthTag_ok hmacSum hh c ht0 hle data nonce _
  · exact Seal_eq hmacSum hh c ht0 hle hpos dst nonce plaintext data hnonce

theorem Seal_returns_envelope_witness :
    sumHmac.WellFormed ∧ New (zeros 32) shiftCipher = .ok zeroContext ∧
      0 < zeroContext.blockCipher.blockSize ∧ len (zeros 16) = zeroContext.blockCipher.blockSize ∧
      ∃ padded ct tag : List Byte,
        pad testBytes zeroContext.blockCipher.blockSize = .ok padded ∧
        cbcEncrypt zeroContext.blockCipher (zeros 16) padded padded = .ok ct ∧
        ComputeAuthTag sumHmac zeroContext [] (zeros 16) ct = .ok tag ∧
        Seal sumHmac zeroContext [7] (zeros 16) testBytes [] = .ok ([7] ++ ct ++ tag) :=
  ⟨sumHmac_wellFormed, New_zeroContext, by decide, by decide,
    Seal_returns_envelope sumHmac sumHmac_wellFormed (zeros 32) shiftCipher zeroContext
      New_zeroContext (by decide) [7] (zeros 16) testBytes [] (by decide)⟩

/-- Claim C2: authentication comes before decryption.  For a context built by `New`:
(a) on an input that passes the length and alignment checks and whose trailing
`tagsize` bytes are not the tag recomputed over the rest, `Open` returns the
tag-mismatch error; (b) `Open` returns a plaintext, or the padding error of `unpad`,
only for inputs whose tag verifies; (c) replacing the tag of a sealed output by any
different tag of the same length makes `Open` fail with the tag-mismatch error. -/
theorem Open_authenticates_first (hmacSum : HmacSum) (hh : hmacSum.WellFormed)
    (key : List Byte) (f : BlockCipherFunc) (c : Hmac) (hnew : New key f = .ok c)
    (dst nonce input data : List Byte) :
    (c.keysize ≤ len input → 0 < c.blockCipher.blockSize →
      c.blockCipher.blockSize ∣ len input - c.tagsize →
      ComputeAuthTag hmacSum c data nonce (input.take (tagStart c input))
        ≠ .ok (input.drop (tagStart c input)) →
      Open hmacSum c dst nonce input data = .error (.err .tagMismatch)) ∧
    (((∃ p, Open hmacSum c dst nonce input data = .ok p) ∨
        (∃ e, Open hmacSum c dst nonce input data = .error (.err (.generatePlaintext e)))) →
      ComputeAuthTag hmacSum c data nonce (input.take (tagStart c input))
        = .ok (input.drop (tagStart c input))) ∧
    (c.blockCipher.WellFormed → len nonce = c.blockCipher.blockSize →
      ∀ plaintext sealed tag' : List Byte,
        Seal hmacSum c [] nonce plaintext data = .ok sealed →
        len tag' = c.tagsize → tag' ≠ sealed.drop (tagStart c sealed) →
        Open hmacSum c dst nonce (sealed.take (tagStart c sealed) ++ tag') data
          = .error (.err .tagMismatch)) := by
  obtain ⟨hks, hts, hle⟩ := New_sizes hnew
  have ht0 : 0 ≤ c.tagsize := by omega
  have hA : ∀ d i : List Byte, c.keysize ≤ len i → 0 < c.blockCipher.blockSize →
      c.blockCipher.blockSize ∣ len i - c.tagsize →
      ComputeAuthTag hmacSum c data nonce (i.take (tagStart c i))
        ≠ .ok (i.drop (tagStart c i)) →
      Open hmacSum c d nonce i data = .error (.err .tagMismatch) := by
    intro d i hlen hpos hdvd hne
    rw [ComputeAuthTag_ok hmacSum hh c ht0 hle] at hne
    rw [Open_framed hmacSum hh c ht0 hle hpos d nonce i data hlen (by omega)
      (Int.emod_eq_zero_of_dvd hdvd)]
    rw [if_neg (fun h => hne (congrArg Except.ok h))]
  refine ⟨hA dst input, Open_tag_verified hmacSum c dst nonce input data, ?_⟩
  intro hb hnonce plaintext sealed tag' hseal htl hne
  have hpos := hb.1
  rw [Seal_eq hmacSum hh c ht0 hle hpos [] nonce plaintext data hnonce] at hseal
  have hsealed : sealed
      = sealCiphertext c nonce plaintext ++ sealTag hmacSum c nonce plaintext data := by
    rw [← Except.ok.inj hseal]; simp
  have hct := sealCiphertext_length c hb nonce plaintext hnonce
  have htagl := sealTag_length hmacSum hh c ht0 hle nonce plaintext data
  have hpm := len_paddedOf_mod plaintext (n := c.blockCipher.blockSize) (by omega)
  have hctmod : len (sealCiphertext c nonce plaintext) % c.blockCipher.blockSize = 0 := by
    unfold len at hpm ⊢; rw [hct]; exact hpm
  have hstart : tagStart c sealed = (sealCiphertext c nonce plaintext).length := by
    unfold tagStart; rw [hsealed, len_append]; unfold len; omega
  have hstart' : tagStart c (sealCiphertext c nonce plaintext ++ tag')
      = (sealCiphertext c nonce plaintext).length := by
    unfold tagStart; rw [len_append]; unfold len at htl ⊢; omega
  rw [hstart] at hne ⊢
  rw [hsealed, List.drop_left' rfl] at hne
  rw [hsealed, List.take_left' rfl]
  have h0 := len_nonneg (sealCiphertext c nonce plaintext)
  apply hA
  · rw [len_append]; omega
  · exact hpos
  · rw [len_append, htl]
    have : len (sealCiphertext c nonce plaintext) + c.tagsize - c.tagsize
        = len (sealCiphertext c nonce plaintext) := by omega
    rw [this]
    exact Int.dvd_of_emod_eq_zero hctmod
  · rw [hstart', List.take_left' rfl, List.drop_left' rfl,
      ComputeAuthTag_ok hmacSum hh c ht0 hle]
    intro h
    exact hne (Except.ok.inj h).symm

set_option maxRecDepth 100000 in
theorem Open_authenticates_first_witness :
    Seal sumHmac zeroContext [] (zeros 16) testBytes [] = .ok sealedTest ∧
      (zeroContext.keysize ≤ len tamperedTest ∧ 0 < zeroContext.blockCipher.blockSize ∧
        zeroContext.blockCipher.blockSize ∣ len tamperedTest - zeroContext.tagsize ∧
        ComputeAuthTag sumHmac zeroContext [] (zeros 16)
            (tamperedTest.take (tagStart zeroContext tamperedTest))
          ≠ .ok (tamperedTest.drop (tagStart zeroContext tamperedTest))) ∧
      Open sumHmac zeroContext [] (zeros 16) tamperedTest [] = .error (.err .tagMismatch) :=
  ⟨by decide, ⟨by decide, by decide, by decide, by decide⟩,
    (Open_authenticates_first sumHmac sumHmac_wellFormed (zeros 32) shiftCipher zeroContext
      New_zeroContext [] (zeros 16) tamperedTest []).1
      (by decide) (by decide) (by decide) (by decide)⟩

/-- Claim C1 (code defect): sealing then opening does not always return the plaintext.  For
every context built by `New` over a well-formed sixteen-byte block cipher, every
sixteen-byte nonce and every associated data, sealing the one-byte plaintext `[0x0f]`
succeeds and opening the result fails with the padding error: the padded block is
sixteen bytes `0x0f`, and `unpad` counts sixteen of them where it expects fifteen.  The
plaintext "test" of the specification's scenario does round-trip. -/
theorem Seal_Open_roundtrip_fails (hmacSum : HmacSum) (hh : hmacSum.WellFormed)
    (key : List Byte) (f : BlockCipherFunc) (c : Hmac) (hnew : New key f = .ok c)
    (hb : c.blockCipher.WellFormed) (hbs : c.blockCipher.blockSize = 16)
    (nonce data : List Byte) (hnonce : len nonce = 16) :
    (∃ sealed, Seal hmacSum c [] nonce [15] data = .ok sealed ∧
      Open hmacSum c [] nonce sealed data
        = .error (.err (.generatePlaintext .invalidPadding))) ∧
    (∃ sealed, Seal hmacSum c [] nonce testBytes data = .ok sealed ∧
      Open hmacSum c [] nonce sealed data = .ok testBytes) := by
  obtain ⟨hks, hts, hle⟩ := New_sizes hnew
  have ht0 : 0 ≤ c.tagsize := by omega
  have hn : len nonce = c.blockCipher.blockSize := by rw [hbs]; exact hnonce
  have hseal := fun pt => Seal_eq hmacSum hh c ht0 hle hb.1 [] nonce pt data hn
  have hopen := fun pt => Open_sealed hmacSum hh c hks ht0 hle hb [] nonce pt data hn
  simp only [List.nil_append] at hseal
  refine ⟨⟨_, hseal [15], ?_⟩, ⟨_, hseal testBytes, ?_⟩⟩
  · rw [hopen [15]]
    unfold openFinish
    rw [hbs]
    decide
  · rw [hopen testBytes]
    unfold openFinish
    rw [hbs]
    decide

theorem Seal_Open_roundtrip_fails_witness :
    ∃ sealed, Seal sumHmac zeroContext [] (zeros 16) [15] [] = .ok sealed ∧
      Open sumHmac zeroContext [] (zeros 16) sealed []
        = .error (.err (.generatePlaintext .invalidPadding)) :=
  (Seal_Open_roundtrip_fails sumHmac sumHmac_wellFormed (zeros 32) shiftCipher zeroContext
    New_zeroContext (shiftBlock_wellFormed (zeros 16)) rfl (zeros 16) [] (by decide)).1

/-- Claim C3 (code defect): with a non-empty `dst`, `Open` does not return `dst ++ plaintext`.
For every context built by `New` over a well-formed sixteen-byte block cipher, opening
the sealed plaintext "test" with `dst = [0xaa]` returns the four bytes
`[0xaa, 't', 'e', 's']`: the output buffer is sized `len(plaintext)`, not
`len(dst) + len(plaintext)`, so the last byte of the plaintext is lost. -/
theorem Open_truncates_after_dst (hmacSum : HmacSum) (hh : hmacSum.WellFormed)
    (key : List Byte) (f : BlockCipherFunc) (c : Hmac) (hnew : New key f = .ok c)
    (hb : c.blockCipher.WellFormed) (hbs : c.blockCipher.blockSize = 16)
    (nonce data : List Byte) (hnonce : len nonce = 16) :
    ∃ sealed, Seal hmacSum c [] nonce testBytes data = .ok sealed ∧
      Open hmacSum c [170] nonce sealed data = .ok [170, 116, 101, 115] ∧
      Open hmacSum c [170] nonce sealed data ≠ .ok ([170] ++ testBytes) := by
  obtain ⟨hks, hts, hle⟩ := New_sizes hnew
  have ht0 : 0 ≤ c.tagsize := by omega
  have hn : len nonce = c.blockCipher.blockSize := by rw [hbs]; exact hnonce
  have hseal := Seal_eq hmacSum hh c ht0 hle hb.1 [] nonce testBytes data hn
  have hopen := Open_sealed hmacSum hh c hks ht0 hle hb [170] nonce testBytes data hn
  simp only [List.nil_append] at hseal
  have hres : Open hmacSum c [170] nonce
      (sealCiphertext c nonce testBytes ++ sealTag hmacSum c nonce testBytes data) data
      = .ok [170, 116, 101, 115] := by
    rw [hopen]
    unfold openFinish
    rw [hbs]
    decide
  refine ⟨_, hseal, hres, ?_⟩
  rw [hres]
  decide

theorem Open_truncates_after_dst_witness :
    ∃ sealed, Seal sumHmac zeroContext [] (zeros 16) testBytes [] = .ok sealed ∧
      Open sumHmac zeroContext [170] (zeros 16) sealed [] = .ok [170, 116, 101, 115] ∧
      Open sumHmac zeroContext [170] (zeros 16) sealed [] ≠ .ok ([170] ++ testBytes) :=
  Open_truncates_after_dst sumHmac sumHmac_wellFormed (zeros 32) shiftCipher zeroContext
    New_zeroContext (shiftBlock_wellFormed (zeros 16)) rfl (zeros 16) [] (by decide)

/-! ## The unpadding scan -/

theorem trailingRun_le (buf : List Byte) (b : Byte) : trailingRun buf b ≤ buf.length := by
  have hsplit := congrArg List.length
    (List.takeWhile_append_dropWhile (fun x => decide (x = b)) buf.reverse)
  simp only [List.length_append, List.length_reverse] at hsplit
  unfold trailingRun
  omega

theorem trailingRun_append_singleton (buf : List Byte) (a b : Byte) :
    trailingRun (buf ++ [a]) b = if a = b then trailingRun buf b + 1 else 0 := by
  unfold trailingRun
  rw [List.reverse_append, List.reverse_singleton, List.singleton_append, List.takeWhile_cons]
  by_cases h : a = b
  · simp [h]
  · simp [h]

/-- The scan of `unpad` from index `k - 1` downwards adds to `count` the length of
the trailing run of `last` in the first `k` bytes. -/
theorem unpadLoop_eq (buf : List Byte) (last : Byte) (k : Nat) (hk : k ≤ buf.length)
    (count : Int) :
    unpadLoop buf last k count = count + (trailingRun (buf.take k) last : Int) := by
  induction k generalizing count with
  | zero => simp [unpadLoop, trailingRun]
  | succ k ih =>
    have hlt : k < buf.length := hk
    have htake : buf.take (k + 1) = buf.take k ++ [buf.getD k 0] := by
      rw [List.take_succ, List.getD_eq_getElem?_getD, List.getElem?_eq_getElem hlt]
      simp
    rw [unpadLoop, htake, trailingRun_append_singleton]
    by_cases h : buf.getD k 0 = last
    · rw [if_neg (not_not.mpr h), if_pos h, ih (by omega)]
      push_cast
      omega
    · rw [if_pos h, if_neg h]
      simp

/-- The bytes of the trailing run are all equal to `b`. -/
theorem drop_trailingRun (buf : List Byte) (b : Byte) :
    buf.drop (buf.length - trailingRun buf b) = List.replicate (trailingRun buf b) b := by
  have hsplit := List.takeWhile_append_dropWhile (fun x => decide (x = b)) buf.reverse
  have hrev : buf = (buf.reverse.dropWhile (fun x => decide (x = b))).reverse
      ++ (buf.reverse.takeWhile (fun x => decide (x = b))).reverse := by
    rw [← List.reverse_append, hsplit, List.reverse_reverse]
  have hall : buf.reverse.takeWhile (fun x => decide (x = b))
      = List.replicate (trailingRun buf b) b := by
    rw [List.eq_replicate_iff]
    refine ⟨rfl, ?_⟩
    intro x hx
    simpa using List.mem_takeWhile_imp hx
  have hlen : buf.length - trailingRun buf b
      = (buf.reverse.dropWhile (fun x => decide (x = b))).reverse.length := by
    have := congrArg List.length hsplit
    simp only [List.length_append, List.length_reverse] at this ⊢
    unfold trailingRun
    omega
  rw [hlen, congrArg (List.drop _) hrev, List.drop_left, hall, List.reverse_replicate]

theorem index_last (buf : List Byte) (hne : buf ≠ []) :
    index buf (len buf - 1) = .ok (buf.getLast hne) := by
  have hpos : 0 < buf.length := List.length_pos.mpr hne
  have hidx : (len buf - 1).toNat = buf.length - 1 := by unfold len; omega
  unfold index
  rw [if_neg (by unfold len; omega), hidx, List.get?_eq_getElem?,
    List.getElem?_eq_getElem (by omega), List.getLast_eq_getElem]

/-- `unpad` on a non-empty buffer, for a positive block size: the two checks and the
result, in terms of the last byte and the trailing run of bytes equal to it. -/
theorem unpad_eq (buf : List Byte) (hne : buf ≠ []) {n : Int} (hn : 1 ≤ n) :
    unpad buf n =
      if len buf % n ≠ 0 then .error (.err (.notMultipleOfBlockSize n))
      else if trailingRun buf (buf.getLast hne) ≠ (buf.getLast hne).val then
        .error (.err .invalidPadding)
      else .ok (buf.take (buf.length - (buf.getLast hne).val)) := by
  have hmod : (len buf).tmod n = len buf % n :=
    Int.tmod_eq_emod (len_nonneg buf) (by omega)
  have hrun := trailingRun_le buf (buf.getLast hne)
  unfold unpad
  simp only [hmod]
  rw [if_neg (by omega)]
  by_cases h1 : len buf % n ≠ 0
  · rw [if_pos h1, if_pos h1]
  rw [if_neg h1, if_neg h1, index_last buf hne]
  simp only
  rw [unpadLoop_eq buf _ buf.length (Nat.le_refl _), List.take_length]
  by_cases h2 : trailingRun buf (buf.getLast hne) = (buf.getLast hne).val
  · rw [if_neg (by unfold intOfByte; omega), if_neg (not_not.mpr h2)]
    unfold sliceTo
    rw [if_neg (by unfold intOfByte len; omega)]
    congr 2
    unfold intOfByte len
    omega
  · rw [if_pos (by unfold intOfByte; omega), if_pos h2]

theorem trailingRun_last_pos (buf : List Byte) (hne : buf ≠ []) :
    1 ≤ trailingRun buf (buf.getLast hne) := by
  have h := trailingRun_append_singleton buf.dropLast (buf.getLast hne) (buf.getLast hne)
  rw [List.dropLast_append_getLast hne, if_pos rfl] at h
  omega

/-- Claim C17: the decision rule and result of `unpad`.  For a block size `n ≥ 1` and
a non-empty buffer, `unpad` fails when the length is not a multiple of `n`; otherwise,
with `k` the value of the last byte and `c` the length of the maximal trailing run of
bytes equal to the last byte, it succeeds exactly when `c = k` (and returns the
"invalid padding" error when `c ≠ k`); on success the result is the buffer without its
last `k` bytes, the buffer is the result followed by `k` bytes of value `k`, and
`1 ≤ k ≤ len(buf)`, so the slice bound `len(buf) - k` is not negative. -/
theorem unpad_decision (buf : List Byte) (hne : buf ≠ []) (n : Int) (hn : 1 ≤ n) :
    (len buf % n ≠ 0 → unpad buf n = .error (.err (.notMultipleOfBlockSize n))) ∧
    (len buf % n = 0 →
      ((∃ r, unpad buf n = .ok r) ↔
        trailingRun buf (buf.getLast hne) = (buf.getLast hne).val) ∧
      (trailingRun buf (buf.getLast hne) ≠ (buf.getLast hne).val →
        unpad buf n = .error (.err .invalidPadding)) ∧
      (∀ r, unpad buf n = .ok r →
        r = buf.take (buf.length - (buf.getLast hne).val) ∧
        buf = r ++ List.replicate (buf.getLast hne).val (buf.getLast hne) ∧
        1 ≤ (buf.getLast hne).val ∧ (buf.getLast hne).val ≤ buf.length ∧
        0 ≤ len buf - intOfByte (buf.getLast hne))) := by
  have heq := unpad_eq buf hne hn
  refine ⟨fun h => by rw [heq, if_pos h], fun h0 => ?_⟩
  rw [if_neg (not_not.mpr h0)] at heq
  have hsucc : ∀ r, unpad buf n = .ok r →
      trailingRun buf (buf.getLast hne) = (buf.getLast hne).val ∧
      r = buf.take (buf.length - (buf.getLast hne).val) := by
    intro r hr
    rw [heq] at hr
    by_cases h2 : trailingRun buf (buf.getLast hne) = (buf.getLast hne).val
    · rw [if_neg (not_not.mpr h2)] at hr
      exact ⟨h2, (Except.ok.inj hr).symm⟩
    · rw [if_pos h2] at hr
      cases hr
  refine ⟨⟨fun ⟨r, hr⟩ => (hsucc r hr).1, fun h2 => ?_⟩, fun h2 => ?_, fun r hr => ?_⟩
  · exact ⟨_, by rw [heq, if_neg (not_not.mpr h2)]⟩
  · rw [heq, if_pos h2]
  · obtain ⟨h2, hres⟩ := hsucc r hr
    have hpos := trailingRun_last_pos buf hne
    have hle := trailingRun_le buf (buf.getLast hne)
    have hdrop := drop_trailingRun buf (buf.getLast hne)
    rw [h2] at hdrop hpos hle
    refine ⟨hres, ?_, hpos, hle, by unfold len intOfByte; omega⟩
    rw [hres, ← hdrop, List.take_append_drop]

theorem unpad_decision_witness :
    ([1, 2, 3, 1] : List Byte) ≠ [] ∧ (1 : Int) ≤ 4 ∧ len [1, 2, 3, 1] % 4 = 0 ∧
      unpad [1, 2, 3, 1] 4 = .ok [1, 2, 3] ∧
      ([1, 2, 3, 1] : List Byte) = [1, 2, 3] ++ List.replicate 1 1 :=
  ⟨by decide, by decide, by decide, by decide,
    by
      have h := ((unpad_decision [1, 2, 3, 1] (by decide) 4 (by decide)).2 (by decide)).2.2
        [1, 2, 3] (by decide)
      exact h.2.1⟩

theorem byteOfInt_val {k : Int} (h0 : 0 ≤ k) (h1 : k ≤ 255) : ((byteOfInt k).val : Int) = k := by
  unfold byteOfInt
  simp only
  omega

theorem len_mul_le_of_dvd (buf : List Byte) {n m : Int} (hn : 1 ≤ n) (hdvd : n ∣ m)
    (hlt : len buf < m) : len buf + padLen buf n ≤ m := by
  obtain ⟨q, rfl⟩ := hdvd
  have hdiv := Int.emod_add_ediv (len buf) n
  have hmod0 := Int.emod_nonneg (len buf) (show n ≠ 0 by omega)
  have hq : len buf / n + 1 ≤ q := by
    by_contra hcon
    have hle : q ≤ len buf / n := by omega
    have := Int.mul_le_mul_of_nonneg_left hle (show 0 ≤ n by omega)
    omega
  have := Int.mul_le_mul_of_nonneg_left hq (show 0 ≤ n by omega)
  rw [Int.mul_add, Int.mul_one] at this
  unfold padLen
  omega

/-- Claim C19: what `pad` produces.  For a block size `n` with `1 ≤ n ≤ 255` and any
buffer, `pad` returns the buffer followed by `k = n - len(buf) % n` bytes of value `k`,
with `1 ≤ k ≤ n`; the buffer is a proper initial part of the result, and the result's
length `len(buf) + k` is the smallest multiple of `n` strictly greater than `len(buf)`. -/
theorem pad_result (buf : List Byte) (n : Int) (h1 : 1 ≤ n) (h255 : n ≤ 255) :
    pad buf n = .ok (buf ++ List.replicate (padLen buf n).toNat (byteOfInt (padLen buf n))) ∧
    padLen buf n = n - len buf % n ∧ 1 ≤ padLen buf n ∧ padLen buf n ≤ n ∧
    ((byteOfInt (padLen buf n)).val : Int) = padLen buf n ∧
    (∀ r, pad buf n = .ok r →
      buf <+: r ∧ buf ≠ r ∧ len r = len buf + padLen buf n ∧
      n ∣ len r ∧ len buf < len r ∧
      ∀ m : Int, n ∣ m → len buf < m → len r ≤ m) := by
  have hb := padLen_bounds buf h1
  refine ⟨pad_eq buf h1, rfl, hb.1, hb.2, byteOfInt_val (by omega) (by omega), ?_⟩
  intro r hr
  rw [pad_eq buf h1] at hr
  have hr' := Except.ok.inj hr
  have hlen : len r = len buf + padLen buf n := by
    rw [← hr']
    unfold len
    simp only [List.length_append, List.length_replicate]
    omega
  refine ⟨⟨_, hr'⟩, ?_, hlen, ?_, by omega, ?_⟩
  · intro h
    have := congrArg len h
    omega
  · rw [hlen]
    exact Int.dvd_of_emod_eq_zero (len_pad_mod buf n)
  · intro m hdvd hlt
    rw [hlen]
    exact len_mul_le_of_dvd buf h1 hdvd hlt

theorem pad_result_witness :
    (1 : Int) ≤ 4 ∧ (4 : Int) ≤ 255 ∧
      pad [1, 2, 3] 4
        = .ok ([1, 2, 3] ++ List.replicate (padLen [1, 2, 3] 4).toNat
            (byteOfInt (padLen [1, 2, 3] 4))) ∧
      padLen [1, 2, 3] 4 = 1 :=
  ⟨by decide, by decide, (pad_result [1, 2, 3] 4 (by decide) (by decide)).1, by decide⟩

theorem trailingRun_append_replicate (buf : List Byte) (k : Nat) (b : Byte) :
    trailingRun (buf ++ List.replicate k b) b = k + trailingRun buf b := by
  induction k with
  | zero => simp
  | succ k ih =>
    rw [List.replicate_succ', ← List.append_assoc, trailingRun_append_singleton, if_pos rfl, ih]
    omega

theorem trailingRun_eq_zero_iff (buf : List Byte) (b : Byte) :
    trailingRun buf b = 0 ↔ buf.getLast? ≠ some b := by
  rcases List.eq_nil_or_concat buf with rfl | ⟨init, a, rfl⟩
  · simp [trailingRun]
  · rw [List.concat_eq_append, trailingRun_append_singleton, List.getLast?_append]
    by_cases h : a = b
    · simp [h]
    · simp [h]

theorem getLast_append_replicate (buf : List Byte) (k : Nat) (b : Byte) (hk : 0 < k)
    (h : buf ++ List.replicate k b ≠ []) : (buf ++ List.replicate k b).getLast h = b := by
  obtain ⟨j, rfl⟩ : ∃ j, k = j + 1 := ⟨k - 1, by omega⟩
  have hsplit : buf ++ List.replicate (j + 1) b = (buf ++ List.replicate j b) ++ [b] := by
    rw [List.replicate_succ', List.append_assoc]
  have hopt : (buf ++ List.replicate (j + 1) b).getLast? = some b := by
    rw [hsplit, List.getLast?_append]
    simp
  rw [List.getLast?_eq_getLast _ h] at hopt
  exact Option.some.inj hopt

/-- Unpadding a padded buffer, for a block size between 1 and 255: the original
buffer comes back unless it ends with a byte equal to the pad length. -/
theorem unpad_paddedOf (buf : List Byte) {n : Int} (h1 : 1 ≤ n) (h255 : n ≤ 255) :
    unpad (paddedOf buf n) n =
      if buf.getLast? = some (byteOfInt (padLen buf n)) then .error (.err .invalidPadding)
      else .ok buf := by
  have hb := padLen_bounds buf h1
  have hval := byteOfInt_val (k := padLen buf n) (by omega) (by omega)
  have hk : 0 < (padLen buf n).toNat := by omega
  have hne : paddedOf buf n ≠ [] := by
    intro h
    have := congrArg List.length h
    unfold paddedOf at this
    simp only [List.length_append, List.length_replicate, List.length_nil] at this
    omega
  have hlast : (paddedOf buf n).getLast hne = byteOfInt (padLen buf n) :=
    getLast_append_replicate buf _ _ hk hne
  have hrun : trailingRun (paddedOf buf n) (byteOfInt (padLen buf n))
      = (padLen buf n).toNat + trailingRun buf (byteOfInt (padLen buf n)) :=
    trailingRun_append_replicate buf _ _
  have hv : (byteOfInt (padLen buf n)).val = (padLen buf n).toNat := by omega
  rw [unpad_eq (paddedOf buf n) hne h1, if_neg (not_not.mpr (len_paddedOf_mod buf h1)),
    hlast, hrun, hv]
  by_cases hl : buf.getLast? = some (byteOfInt (padLen buf n))
  · have hz : trailingRun buf (byteOfInt (padLen buf n)) ≠ 0 :=
      fun h0 => (trailingRun_eq_zero_iff buf _).mp h0 hl
    rw [if_pos hl, if_pos (by omega)]
  · have hz : trailingRun buf (byteOfInt (padLen buf n)) = 0 :=
      (trailingRun_eq_zero_iff buf _).mpr hl
    rw [if_neg hl, if_neg (by omega)]
    congr 1
    unfold paddedOf
    simp

/-- Claim C18: the exact condition for the padding round trip.  For a block size `n`
with `1 ≤ n ≤ 255` and any buffer, `unpad(pad(buf, n), n)` returns `buf` if and only if
`buf` is empty or its last byte differs from the pad length `n - len(buf) % n`; when
`buf` ends with a byte equal to the pad length it fails with "invalid padding". -/
theorem unpad_pad_iff (buf : List Byte) (n : Int) (h1 : 1 ≤ n) (h255 : n ≤ 255) :
    ∃ padded, pad buf n = .ok padded ∧
      (unpad padded n = .ok buf ↔
        (buf = [] ∨ buf.getLast? ≠ some (byteOfInt (padLen buf n)))) ∧
      (buf.getLast? = some (byteOfInt (padLen buf n)) →
        unpad padded n = .error (.err .invalidPadding)) := by
  refine ⟨paddedOf buf n, pad_eq buf h1, ?_, ?_⟩
  · rw [unpad_paddedOf buf h1 h255]
    by_cases hl : buf.getLast? = some (byteOfInt (padLen buf n))
    · rw [if_pos hl]
      constructor
      · intro h; cases h
      · rintro (rfl | h)
        · simp at hl
        · exact absurd hl h
    · rw [if_neg hl]
      exact ⟨fun _ => Or.inr hl, fun _ => rfl⟩
  · intro hl
    rw [unpad_paddedOf buf h1 h255, if_pos hl]

theorem unpad_pad_iff_witness :
    (1 : Int) ≤ 16 ∧ (16 : Int) ≤ 255 ∧
      ∃ padded, pad [15] 16 = .ok padded ∧
        (unpad padded 16 = .ok [15] ↔
          (([15] : List Byte) = [] ∨
            ([15] : List Byte).getLast? ≠ some (byteOfInt (padLen [15] 16)))) ∧
        (([15] : List Byte).getLast? = some (byteOfInt (padLen [15] 16)) →
          unpad padded 16 = .error (.err .invalidPadding)) :=
  ⟨by decide, by decide, unpad_pad_iff [15] 16 (by decide) (by decide)⟩

/-! ## The two halves of Open -/

/-- The output step of `Open`: the buffer has `max(len(dst), len(p))` bytes, so only
the first `len(p) - len(dst)` bytes of the plaintext are copied after `dst`. -/
theorem ensureSize_copy (dst p : List Byte) :
    (do
      let ret ← ensureSize dst (len p)
      let _out ← sliceFrom ret (len dst)
      pure (copyAt ret dst.length p).1 : Result (List Byte)) = .ok (openOutput dst p) := by
  by_cases h : len dst < len p
  · rw [ensureSize_grow dst _ h, bind_ok]
    change (sliceFrom _ ((dst.length : Nat) : Int) >>= _) = _
    rw [sliceFrom_ok _ _ (by simp), bind_ok]
    have hlen : (len p).toNat - dst.length = p.length - dst.length := by unfold len; omega
    rw [hlen]
    unfold copyAt openOutput
    have hmin : min ((dst ++ List.replicate (p.length - dst.length) (0 : Byte)).length
        - dst.length) p.length = p.length - dst.length := by
      simp only [List.length_append, List.length_replicate]; omega
    simp only [hmin]
    rw [List.take_left' rfl, List.drop_append, List.drop_replicate]
    simp [pure, Except.pure]
  · rw [ensureSize_keep dst _ (by omega), bind_ok]
    change (sliceFrom _ ((dst.length : Nat) : Int) >>= _) = _
    rw [sliceFrom_ok _ _ (Nat.le_refl _), bind_ok]
    have hz : p.length - dst.length = 0 := by unfold len at h; omega
    unfold copyAt openOutput
    simp [hz, pure, Except.pure]

/-- The last steps of `Open` in closed form. -/
theorem openFinish_eq (c : Hmac) (dst buf : List Byte) :
    openFinish c dst buf =
      match unpad buf c.blockCipher.blockSize with
      | .ok p => .ok (openOutput dst p)
      | .error (.err e) => .error (.err (.generatePlaintext e))
      | .error (.panic q) => .error (.panic q) := by
  unfold openFinish
  cases hu : unpad buf c.blockCipher.blockSize with
  | ok p =>
    rw [wrapErr_ok, bind_ok]
    exact ensureSize_copy dst p
  | error e =>
    cases e with
    | err e => rfl
    | panic q => rfl

/-- `Open` is its first part followed by its last steps. -/
theorem Open_eq_bind (hmacSum : HmacSum) (c : Hmac) (dst nonce input data : List Byte) :
    Open hmacSum c dst nonce input data =
      openDecrypted hmacSum c nonce input data >>= openFinish c dst := by
  unfold Open openDecrypted
  simp only
  by_cases h1 : len input < c.keysize
  · rw [if_pos h1, if_pos h1, bind_error]
  rw [if_neg h1, if_neg h1]
  by_cases h2 : c.blockCipher.blockSize = 0
  · rw [if_pos h2, if_pos h2, bind_error]
  rw [if_neg h2, if_neg h2]
  by_cases h3 : (len input - c.tagsize).tmod c.blockCipher.blockSize ≠ 0
  · rw [if_pos h3, if_pos h3, bind_error]
  rw [if_neg h3, if_neg h3]
  cases sliceFrom input (len input - c.tagsize) with
  | error e => simp only [bind_error]
  | ok tag =>
    rw [bind_ok, bind_ok]
    cases sliceTo input (len input - c.tagsize) with
    | error e => simp only [bind_error]
    | ok ct =>
      rw [bind_ok, bind_ok]
      cases sliceTo ct (len input - c.tagsize) with
      | error e => simp only [bind_error]
      | ok ct' =>
        rw [bind_ok, bind_ok]
        cases wrapErr Err.computeAuthTag (ComputeAuthTag hmacSum c data nonce ct') with
        | error e => simp only [bind_error]
        | ok expected =>
          rw [bind_ok, bind_ok]
          by_cases h4 : ConstantTimeCompare expected tag ≠ 1
          · rw [if_pos h4, if_pos h4, bind_error]
          rw [if_neg h4, if_neg h4]
          cases makeBytes (len input - c.tagsize) with
          | error e => simp only [bind_error]
          | ok buf0 =>
            rw [bind_ok, bind_ok]
            cases cbcDecrypt c.blockCipher nonce buf0 ct with
            | error e => simp only [bind_error]
            | ok buf =>
              rw [bind_ok, bind_ok]
              rfl

/-! ## Claims on the tag computer -/

theorem byteOfInt_natCast_val (x : Nat) : (byteOfInt (x : Int)).val = x % 256 := by
  unfold byteOfInt
  simp only
  omega

/-- The eight bytes written by `PutUint64` denote the value modulo `2^64`. -/
theorem bigEndianValue_bigEndian64 (v : Nat) :
    bigEndianValue (bigEndian64 v) = v % 2 ^ 64 := by
  unfold bigEndianValue bigEndian64
  simp only [List.foldl_cons, List.foldl_nil, byteOfInt_natCast_val]
  omega

theorem uint64_len_mul (aad : List Byte) : uint64 (len aad * 8) = (8 * aad.length) % 2 ^ 64 := by
  unfold uint64 len
  omega

/-- Claim C11: the layout of the tag input.  For a context built by `New`,
`ComputeAuthTag` returns the first `tagsize` bytes of the keyed hash, under the
context's hash and integrity key, of `aad ++ nonce ++ ciphertext ++ trailer`; the
trailer is eight bytes that denote, most significant byte first, the bit length
`8 * len(aad)` (modulo `2^64`, which is the bit length itself for any `aad` shorter
than `2^61` bytes), so the input has `len(aad) + len(nonce) + len(ciphertext) + 8`
bytes; and for no context does `ComputeAuthTag` return an error. -/
theorem ComputeAuthTag_layout (hmacSum : HmacSum) (hh : hmacSum.WellFormed)
    (key : List Byte) (f : BlockCipherFunc) (c : Hmac) (hnew : New key f = .ok c)
    (aad nonce ciphertext : List Byte) :
    ComputeAuthTag hmacSum c aad nonce ciphertext =
      .ok ((hmacSum c.hash c.integrityKey
        (aad ++ nonce ++ ciphertext ++ bigEndian64 (uint64 (len aad * 8)))).take
          c.tagsize.toNat) ∧
    (bigEndian64 (uint64 (len aad * 8))).length = 8 ∧
    bigEndianValue (bigEndian64 (uint64 (len aad * 8))) = (8 * aad.length) % 2 ^ 64 ∧
    (aad.length < 2 ^ 61 →
      bigEndianValue (bigEndian64 (uint64 (len aad * 8))) = 8 * aad.length) ∧
    (aad ++ nonce ++ ciphertext ++ bigEndian64 (uint64 (len aad * 8))).length
      = aad.length + nonce.length + ciphertext.length + 8 ∧
    (∀ (c' : Hmac) (e : Err),
      ComputeAuthTag hmacSum c' aad nonce ciphertext ≠ .error (.err e)) := by
  obtain ⟨hks, hts, hle⟩ := New_sizes hnew
  have hval : bigEndianValue (bigEndian64 (uint64 (len aad * 8))) = (8 * aad.length) % 2 ^ 64 := by
    rw [bigEndianValue_bigEndian64, uint64_len_mul, Nat.mod_mod]
  refine ⟨ComputeAuthTag_ok hmacSum hh c (by omega) hle aad nonce ciphertext, rfl, hval, ?_, ?_, ?_⟩
  · intro hlt
    rw [hval]
    exact Nat.mod_eq_of_lt (by omega)
  · simp only [List.length_append, bigEndian64_length]
  · intro c' e h
    rw [ComputeAuthTag_eq] at h
    unfold sliceTo at h
    split_ifs at h
    cases h

theorem ComputeAuthTag_layout_witness :
    ComputeAuthTag sumHmac zeroContext [1, 2] (zeros 16) [3] =
      .ok ((sumHmac zeroContext.hash zeroContext.integrityKey
        ([1, 2] ++ zeros 16 ++ [3] ++ bigEndian64 (uint64 (len [1, 2] * 8)))).take
          zeroContext.tagsize.toNat) ∧
      bigEndian64 (uint64 (len [1, 2] * 8)) = [0, 0, 0, 0, 0, 0, 0, 16] :=
  ⟨(ComputeAuthTag_layout sumHmac sumHmac_wellFormed (zeros 32) shiftCipher zeroContext
      New_zeroContext [1, 2] (zeros 16) [3]).1, by decide⟩

/-- Claim C12: the tag size invariant.  For a context built by `New` the half-key
length `h = len(key)/2` is 16, 24 or 32 and equals `tagsize`; the selected hash's digest
has `2 * h` bytes (32, 48, 64), so the truncation `s[:tagsize]` is in bounds; every tag
returned by `ComputeAuthTag` has exactly `h` bytes, and so has the tag that ends every
`Seal` output. -/
theorem tag_size_invariant (hmacSum : HmacSum) (hh : hmacSum.WellFormed)
    (key : List Byte) (f : BlockCipherFunc) (c : Hmac) (hnew : New key f = .ok c) :
    c.tagsize = ((key.length / 2 : Nat) : Int) ∧
    (c.tagsize = 16 ∨ c.tagsize = 24 ∨ c.tagsize = 32) ∧
    (c.hash.size : Int) = 2 * c.tagsize ∧
    (∀ aad nonce ciphertext : List Byte,
      ((hmacSum c.hash c.integrityKey (authInput aad nonce ciphertext)).length : Int)
          = 2 * c.tagsize ∧
      ∃ tag, ComputeAuthTag hmacSum c aad nonce ciphertext = .ok tag ∧
        len tag = c.tagsize) ∧
    (∀ dst nonce plaintext data : List Byte,
      0 < c.blockCipher.blockSize → len nonce = c.blockCipher.blockSize →
      ∃ ct tag, Seal hmacSum c dst nonce plaintext data = .ok (dst ++ ct ++ tag) ∧
        ComputeAuthTag hmacSum c data nonce ct = .ok tag ∧ len tag = c.tagsize) := by
  obtain ⟨hks, hts, hle⟩ := New_sizes hnew
  have ht0 : 0 ≤ c.tagsize := by omega
  have hhalf : c.tagsize = ((key.length / 2 : Nat) : Int) ∧ (c.hash.size : Int) = 2 * c.tagsize := by
    obtain ⟨bc, -, h16 | h24 | h32⟩ := New_ok_inv hnew
    · obtain ⟨hk, rfl⟩ := h16
      simp [contextOf, hk, HashAlg.size]
    · obtain ⟨hk, rfl⟩ := h24
      simp [contextOf, hk, HashAlg.size]
    · obtain ⟨hk, rfl⟩ := h32
      simp [contextOf, hk, HashAlg.size]
  have htag : ∀ aad nonce ciphertext : List Byte,
      len ((hmacSum c.hash c.integrityKey (authInput aad nonce ciphertext)).take
        c.tagsize.toNat) = c.tagsize := by
    intro aad nonce ciphertext
    unfold len
    rw [List.length_take, hh]
    omega
  refine ⟨hhalf.1, hts, hhalf.2, ?_, ?_⟩
  · intro aad nonce ciphertext
    refine ⟨by rw [hh]; exact hhalf.2, _,
      ComputeAuthTag_ok hmacSum hh c ht0 hle aad nonce ciphertext, htag aad nonce ciphertext⟩
  · intro dst nonce plaintext data hpos hnonce
    exact ⟨sealCiphertext c nonce plaintext, sealTag hmacSum c nonce plaintext data,
      Seal_eq hmacSum hh c ht0 hle hpos dst nonce plaintext data hnonce,
      ComputeAuthTag_ok hmacSum hh c ht0 hle data nonce _, htag data nonce _⟩

theorem tag_size_invariant_witness :
    sumHmac.WellFormed ∧ New (zeros 32) shiftCipher = .ok zeroContext ∧
      zeroContext.tagsize = (((zeros 32).length / 2 : Nat) : Int) ∧
      (zeroContext.tagsize = 16 ∨ zeroContext.tagsize = 24 ∨ zeroContext.tagsize = 32) :=
  ⟨sumHmac_wellFormed, New_zeroContext,
    (tag_size_invariant sumHmac sumHmac_wellFormed (zeros 32) shiftCipher zeroContext
      New_zeroContext).1,
    (tag_size_invariant sumHmac sumHmac_wellFormed (zeros 32) shiftCipher zeroContext
      New_zeroContext).2.1⟩

/-! ## Claims on lengths -/

/-- The length of a sealed envelope beyond `dst`: plaintext, padding and tag. -/
theorem len_sealed (hmacSum : HmacSum) (hh : hmacSum.WellFormed) (c : Hmac)
    (ht0 : 0 ≤ c.tagsize) (ht1 : c.tagsize ≤ (c.hash.size : Int))
    (hb : c.blockCipher.WellFormed)
    (dst nonce plaintext data : List Byte) (hnonce : len nonce = c.blockCipher.blockSize) :
    len (dst ++ sealCiphertext c nonce plaintext ++ sealTag hmacSum c nonce plaintext data)
      = len dst + (len plaintext + padLen plaintext c.blockCipher.blockSize) + c.tagsize := by
  have hpos := hb.1
  have hct := sealCiphertext_length c hb nonce plaintext hnonce
  have htl := sealTag_length hmacSum hh c ht0 ht1 nonce plaintext data
  have hpl := paddedOf_length plaintext (n := c.blockCipher.blockSize) (by omega)
  rw [len_append, len_append]
  unfold len at *
  omega

theorem len_add_padLen (buf : List Byte) (n : Int) :
    len buf + padLen buf n = (len buf / n + 1) * n := by
  have hdiv := Int.emod_add_ediv (len buf) n
  unfold padLen
  rw [Int.add_mul, Int.one_mul, Int.mul_comm]
  omega

theorem roundUp_of_not_dvd {x n : Int} (hn : 0 < n) (hx : x % n ≠ 0) :
    roundUp x n = (x / n + 1) * n := by
  have hdiv := Int.emod_add_ediv x n
  have h0 := Int.emod_nonneg x (show n ≠ 0 by omega)
  have h1 := Int.emod_lt_of_pos x hn
  have hq : (x + n - 1) / n = x / n + 1 ∧ (x + n - 1) % n = x % n - 1 := by
    rw [Int.ediv_emod_unique hn]
    refine ⟨?_, by omega, by omega⟩
    rw [Int.mul_add, Int.mul_one]
    omega
  unfold roundUp
  rw [hq.1]

theorem roundUp_of_dvd {x n : Int} (hn : 0 < n) (hx : x % n = 0) :
    roundUp x n = x / n * n := by
  have hdiv := Int.emod_add_ediv x n
  have hq : (x + n - 1) / n = x / n ∧ (x + n - 1) % n = n - 1 := by
    rw [Int.ediv_emod_unique hn]
    exact ⟨by omega, by omega, by omega⟩
  unfold roundUp
  rw [hq.1]

set_option maxRecDepth 100000 in
/-- Claim C13 (counterexample): sealing the empty plaintext with a 32-byte key gives
32 bytes, a full block of padding and a sixteen-byte tag, whereas the length 0 rounded
up to a multiple of the block size, plus the tag size, is 16. -/
theorem sealed_length_counterexample :
    Seal sumHmac zeroContext [] (zeros 16) [] [] = .ok sealedEmpty ∧
      len sealedEmpty - len ([] : List Byte) = 32 ∧
      roundUp (len ([] : List Byte)) zeroContext.blockCipher.blockSize + zeroContext.tagsize
        = 16 := by
  refine ⟨by decide, by decide, by decide⟩

/-- Claim C13 (amended): for a context built by `New` over a well-formed cipher and a
nonce one block long, `len(Seal(dst, nonce, pt, aad)) - len(dst)` is
`(len(pt) / blockSize + 1) * blockSize + tagsize`: the smallest multiple of the block
size strictly greater than `len(pt)`, plus the tag size.  This is `len(pt)` rounded up
to a multiple of the block size plus the tag size when `len(pt)` is not a multiple of
the block size, and one block more than that when it is. -/
theorem sealed_length (hmacSum : HmacSum) (hh : hmacSum.WellFormed)
    (key : List Byte) (f : BlockCipherFunc) (c : Hmac) (hnew : New key f = .ok c)
    (hb : c.blockCipher.WellFormed)
    (dst nonce plaintext data : List Byte) (hnonce : len nonce = c.blockCipher.blockSize) :
    ∃ sealed, Seal hmacSum c dst nonce plaintext data = .ok sealed ∧
      len sealed - len dst
        = (len plaintext / c.blockCipher.blockSize + 1) * c.blockCipher.blockSize
          + c.tagsize ∧
      (len plaintext % c.blockCipher.blockSize ≠ 0 →
        len sealed - len dst
          = roundUp (len plaintext) c.blockCipher.blockSize + c.tagsize) ∧
      (len plaintext % c.blockCipher.blockSize = 0 →
        len sealed - len dst
          = roundUp (len plaintext) c.blockCipher.blockSize + c.blockCipher.blockSize
            + c.tagsize) := by
  obtain ⟨hks, hts, hle⟩ := New_sizes hnew
  have ht0 : 0 ≤ c.tagsize := by omega
  have hpos := hb.1
  have hlen := len_sealed hmacSum hh c ht0 hle hb dst nonce plaintext data hnonce
  have hpad := len_add_padLen plaintext c.blockCipher.blockSize
  refine ⟨_, Seal_eq hmacSum hh c ht0 hle hpos dst nonce plaintext data hnonce, ?_, ?_, ?_⟩
  · rw [hlen, ← hpad]; omega
  · intro hx
    rw [hlen, roundUp_of_not_dvd hpos hx, ← hpad]; omega
  · intro hx
    rw [hlen, roundUp_of_dvd hpos hx]
    have : (len plaintext / c.blockCipher.blockSize + 1) * c.blockCipher.blockSize
        = len plaintext / c.blockCipher.blockSize * c.blockCipher.blockSize
          + c.blockCipher.blockSize := by
      rw [Int.add_mul, Int.one_mul]
    rw [← this, ← hpad]; omega

theorem sealed_length_witness :
    ∃ sealed, Seal sumHmac zeroContext [] (zeros 16) testBytes [] = .ok sealed ∧
      len sealed - len ([] : List Byte)
        = (len testBytes / zeroContext.blockCipher.blockSize + 1)
            * zeroContext.blockCipher.blockSize + zeroContext.tagsize ∧
      (len testBytes / zeroContext.blockCipher.blockSize + 1)
          * zeroContext.blockCipher.blockSize + zeroContext.tagsize = 16 + 16 := by
  obtain ⟨sealed, h1, h2, -⟩ := sealed_length sumHmac sumHmac_wellFormed (zeros 32) shiftCipher
    zeroContext New_zeroContext (shiftBlock_wellFormed (zeros 16)) [] (zeros 16) testBytes []
    (by decide)
  exact ⟨sealed, h1, h2, by decide⟩

/-- Claim C14: `Overhead()` is `blockSize + tagsize`, and for a context built by `New`
over a well-formed cipher and a nonce one block long,
`len(Seal(dst, nonce, pt, aad)) - len(dst) - len(pt)` is at most `Overhead()`, with
equality exactly when `len(pt)` is a multiple of the block size. -/
theorem Overhead_bound (hmacSum : HmacSum) (hh : hmacSum.WellFormed)
    (key : List Byte) (f : BlockCipherFunc) (c : Hmac) (hnew : New key f = .ok c)
    (hb : c.blockCipher.WellFormed)
    (dst nonce plaintext data : List Byte) (hnonce : len nonce = c.blockCipher.blockSize) :
    c.Overhead = c.blockCipher.blockSize + c.tagsize ∧
    ∃ sealed, Seal hmacSum c dst nonce plaintext data = .ok sealed ∧
      len sealed - len dst - len plaintext ≤ c.Overhead ∧
      (len sealed - len dst - len plaintext = c.Overhead ↔
        len plaintext % c.blockCipher.blockSize = 0) := by
  obtain ⟨hks, hts, hle⟩ := New_sizes hnew
  have ht0 : 0 ≤ c.tagsize := by omega
  have hpos := hb.1
  have hlen := len_sealed hmacSum hh c ht0 hle hb dst nonce plaintext data hnonce
  have hbnd := padLen_bounds plaintext (n := c.blockCipher.blockSize) (by omega)
  have hpl : padLen plaintext c.blockCipher.blockSize
      = c.blockCipher.blockSize - len plaintext % c.blockCipher.blockSize := rfl
  refine ⟨rfl, _, Seal_eq hmacSum hh c ht0 hle hpos dst nonce plaintext data hnonce, ?_, ?_⟩
  · rw [hlen]; unfold Hmac.Overhead; omega
  · rw [hlen]; unfold Hmac.Overhead
    constructor
    · intro h; omega
    · intro h; omega

theorem Overhead_bound_witness :
    zeroContext.Overhead = 32 ∧
      ∃ sealed, Seal sumHmac zeroContext [] (zeros 16) testBytes [] = .ok sealed ∧
        len sealed - len ([] : List Byte) - len testBytes ≤ zeroContext.Overhead := by
  obtain ⟨-, sealed, h1, h2, -⟩ := Overhead_bound sumHmac sumHmac_wellFormed (zeros 32)
    shiftCipher zeroContext New_zeroContext (shiftBlock_wellFormed (zeros 16)) [] (zeros 16)
    testBytes [] (by decide)
  exact ⟨by decide, sealed, h1, h2⟩

/-! ## Claims on the results of Open -/

/-- What a successful `Open` returns: `dst` followed by an initial part of the
plaintext that `unpad` produced from the decrypted buffer. -/
theorem Open_ok_inv {hmacSum : HmacSum} {c : Hmac} {dst nonce input data r : List Byte}
    (h : Open hmacSum c dst nonce input data = .ok r) :
    ∃ buf p, openDecrypted hmacSum c nonce input data = .ok buf ∧
      unpad buf c.blockCipher.blockSize = .ok p ∧ r = openOutput dst p := by
  rw [Open_eq_bind] at h
  cases hd : openDecrypted hmacSum c nonce input data with
  | error e => rw [hd, bind_error] at h; cases h
  | ok buf =>
    rw [hd, bind_ok, openFinish_eq] at h
    cases hu : unpad buf c.blockCipher.blockSize with
    | error e =>
      rw [hu] at h
      cases e <;> cases h
    | ok p =>
      rw [hu] at h
      exact ⟨buf, p, rfl, hu, (Except.ok.inj h).symm⟩

/-- Claim C15: buffer prefix preservation.  For every `dst`, the result of `Seal` (for
a context built by `New`, a positive block size and a nonce one block long) and the
result of every successful `Open` (for any context) has at least `len(dst)` bytes, and
its first `len(dst)` bytes are `dst`. -/
theorem dst_preserved (hmacSum : HmacSum) (hh : hmacSum.WellFormed)
    (key : List Byte) (f : BlockCipherFunc) (c : Hmac) (hnew : New key f = .ok c)
    (dst nonce input data : List Byte) :
    (0 < c.blockCipher.blockSize → len nonce = c.blockCipher.blockSize →
      ∃ sealed, Seal hmacSum c dst nonce input data = .ok sealed ∧
        dst.length ≤ sealed.length ∧ sealed.take dst.length = dst) ∧
    (∀ (c' : Hmac) (r : List Byte), Open hmacSum c' dst nonce input data = .ok r →
      dst.length ≤ r.length ∧ r.take dst.length = dst) := by
  obtain ⟨hks, hts, hle⟩ := New_sizes hnew
  constructor
  · intro hpos hnonce
    refine ⟨_, Seal_eq hmacSum hh c (by omega) hle hpos dst nonce input data hnonce, ?_, ?_⟩
    · simp only [List.length_append]; omega
    · rw [List.append_assoc, List.take_left' rfl]
  · intro c' r hr
    obtain ⟨buf, p, -, -, rfl⟩ := Open_ok_inv hr
    unfold openOutput
    exact ⟨by simp only [List.length_append]; omega, List.take_left' rfl⟩

set_option maxRecDepth 100000 in
theorem dst_preserved_witness :
    (∃ sealed, Seal sumHmac zeroContext [170, 187] (zeros 16) testBytes [] = .ok sealed ∧
        [170, 187].length ≤ sealed.length ∧ sealed.take [170, 187].length = [170, 187]) ∧
      (Open sumHmac zeroContext [170, 187] (zeros 16) sealedTest [] = .ok [170, 187, 116, 101] ∧
        ([170, 187, 116, 101] : List Byte).take [170, 187].length = [170, 187]) :=
  ⟨(dst_preserved sumHmac sumHmac_wellFormed (zeros 32) shiftCipher zeroContext
      New_zeroContext [170, 187] (zeros 16) testBytes []).1 (by decide) (by decide),
    by decide,
    ((dst_preserved sumHmac sumHmac_wellFormed (zeros 32) shiftCipher zeroContext
      New_zeroContext [170, 187] (zeros 16) sealedTest []).2 zeroContext
        [170, 187, 116, 101] (by decide)).2⟩

theorem cbcDecryptLoop_length (b : Block) (hb : b.WellFormed) (k : Nat) (iv src : List Byte)
    (hiv : iv.length = b.blockSize.toNat) (hsrc : src.length = k * b.blockSize.toNat) :
    (cbcDecryptLoop b b.blockSize.toNat k iv src).length = k * b.blockSize.toNat := by
  induction k generalizing iv src with
  | zero => simp [cbcDecryptLoop]
  | succ k ih =>
    have hle : b.blockSize.toNat ≤ src.length := by
      rw [hsrc, Nat.succ_mul]; omega
    have htake : (src.take b.blockSize.toNat).length = b.blockSize.toNat := by
      rw [List.length_take]; omega
    have hdec := (hb.nat _ htake).2.1
    have hrest := ih (src.take b.blockSize.toNat) (src.drop b.blockSize.toNat) htake
      (by rw [List.length_drop, hsrc, Nat.succ_mul]; omega)
    simp only [cbcDecryptLoop, List.length_append, xorBytes_length, hdec, hiv, hrest,
      Nat.succ_mul]
    omega

theorem unpad_nil {n : Int} (hn : n ≠ 0) : unpad [] n = .error (.panic .indexOutOfRange) := by
  unfold unpad
  simp only
  rw [if_neg hn, if_neg (by simp [len])]
  rfl

theorem unpad_no_panic (buf : List Byte) (hne : buf ≠ []) {n : Int} (hn : 1 ≤ n) (p : Panic) :
    unpad buf n ≠ .error (.panic p) := by
  rw [unpad_eq buf hne hn]
  intro h
  split_ifs at h <;> cases h

/-- The errors that the part of `Open` after the tag check can return are those of
`unpad`, wrapped. -/
theorem openVerified_err_inv {c : Hmac} {dst nonce ct : List Byte} {e : Err}
    (h : openVerified c dst nonce ct = .error (.err e)) : ∃ e', e = .generatePlaintext e' := by
  unfold openVerified at h
  cases hd : cbcDecrypt c.blockCipher nonce (List.replicate ct.length 0) ct with
  | error e1 =>
    rw [hd, bind_error] at h
    unfold cbcDecrypt at hd
    split_ifs at hd <;> cases hd <;> cases h
  | ok buf =>
    rw [hd, bind_ok] at h
    change openFinish c dst buf = _ at h
    rw [openFinish_eq] at h
    cases hu : unpad buf c.blockCipher.blockSize with
    | ok p => rw [hu] at h; cases h
    | error e2 =>
      rw [hu] at h
      cases e2 with
      | err e3 => exact ⟨e3, by cases h; rfl⟩
      | panic q => cases h

/-- Claim C16 (code defect): `Open` is not total.  For a context built by `New` over a
well-formed cipher and a nonce one block long, the input that consists of exactly the
tag of the empty ciphertext passes every check and verifies; the decrypted buffer is
empty and `unpad` evaluates `buf[lbuf-1]` with `lbuf = 0`, an index out of range, so
`Open` aborts instead of returning an error.  On every input longer than `tagsize`
`Open` returns a plaintext or an error. -/
theorem Open_aborts_on_empty_ciphertext (hmacSum : HmacSum) (hh : hmacSum.WellFormed)
    (key : List Byte) (f : BlockCipherFunc) (c : Hmac) (hnew : New key f = .ok c)
    (hb : c.blockCipher.WellFormed)
    (dst nonce data : List Byte) (hnonce : len nonce = c.blockCipher.blockSize) :
    (∃ tag, ComputeAuthTag hmacSum c data nonce [] = .ok tag ∧ len tag = c.tagsize ∧
      Open hmacSum c dst nonce tag data = .error (.panic .indexOutOfRange)) ∧
    (∀ input : List Byte, c.tagsize < len input →
      ∀ p : Panic, Open hmacSum c dst nonce input data ≠ .error (.panic p)) := by
  obtain ⟨hks, hts, hle⟩ := New_sizes hnew
  have ht0 : 0 ≤ c.tagsize := by omega
  have hpos := hb.1
  constructor
  · have htl : len ((hmacSum c.hash c.integrityKey (authInput data nonce [])).take
        c.tagsize.toNat) = c.tagsize := by
      unfold len
      rw [List.length_take, hh]
      omega
    refine ⟨_, ComputeAuthTag_ok hmacSum hh c ht0 hle data nonce [], htl, ?_⟩
    have hstart : tagStart c ((hmacSum c.hash c.integrityKey (authInput data nonce [])).take
        c.tagsize.toNat) = 0 := by
      unfold tagStart; rw [htl]; omega
    rw [Open_framed hmacSum hh c ht0 hle hpos dst nonce _ data (by omega) (by omega)
      (by rw [htl]; simp)]
    rw [hstart, List.take_zero, List.drop_zero, if_pos rfl]
    unfold openVerified
    rw [cbcDecrypt_ok c.blockCipher hpos nonce _ [] hnonce (by simp [len]) (by simp), bind_ok]
    change openFinish c dst (cbcDecryptLoop c.blockCipher c.blockCipher.blockSize.toNat
      (0 / c.blockCipher.blockSize.toNat) nonce []) = _
    rw [Nat.zero_div, openFinish_eq]
    simp only [cbcDecryptLoop]
    rw [unpad_nil (by omega)]
  · intro input hlong p hcon
    by_cases hmod : (len input - c.tagsize).tmod c.blockCipher.blockSize ≠ 0
    · unfold Open at hcon
      simp only at hcon
      rw [if_neg (by omega), if_neg (by omega), if_pos hmod] at hcon
      cases hcon
    · have hmod' : (len input - c.tagsize) % c.blockCipher.blockSize = 0 := by
        rw [← Int.tmod_eq_emod (by omega) (by omega)]
        exact not_not.mp hmod
      rw [Open_framed hmacSum hh c ht0 hle hpos dst nonce input data (by omega) (by omega)
        hmod'] at hcon
      split_ifs at hcon
      swap
      · cases hcon
      have hle' : tagStart c input ≤ input.length := by unfold tagStart len at *; omega
      have hctlen : (input.take (tagStart c input)).length = tagStart c input := by
        rw [List.length_take]; omega
      have hctmod : len (input.take (tagStart c input)) % c.blockCipher.blockSize = 0 := by
        have : len (input.take (tagStart c input)) = len input - c.tagsize := by
          have hl : len input = (input.length : Int) := rfl
          unfold len; rw [hctlen]; unfold tagStart; omega
        rw [this]; exact hmod'
      have hblocks := blocks_of_mod hpos _ hctmod
      unfold openVerified at hcon
      rw [cbcDecrypt_ok c.blockCipher hpos nonce _ _ hnonce hctmod (by simp), bind_ok] at hcon
      change openFinish c dst _ = _ at hcon
      rw [openFinish_eq] at hcon
      have hbuf : cbcDecryptLoop c.blockCipher c.blockCipher.blockSize.toNat
          ((input.take (tagStart c input)).length / c.blockCipher.blockSize.toNat) nonce
          (input.take (tagStart c input)) ≠ [] := by
        intro hnil
        have hl := cbcDecryptLoop_length c.blockCipher hb _ nonce
          (input.take (tagStart c input)) (by unfold len at hnonce; omega) hblocks
        rw [hnil, ← hblocks, hctlen] at hl
        simp only [List.length_nil] at hl
        unfold tagStart at hl
        omega
      cases hu : unpad (cbcDecryptLoop c.blockCipher c.blockCipher.blockSize.toNat
          ((input.take (tagStart c input)).length / c.blockCipher.blockSize.toNat) nonce
          (input.take (tagStart c input))) c.blockCipher.blockSize with
      | ok r => rw [hu] at hcon; cases hcon
      | error e =>
        rw [hu] at hcon
        cases e with
        | err e' => cases hcon
        | panic q => exact unpad_no_panic _ hbuf (by omega) q hu

set_option maxRecDepth 100000 in
theorem Open_aborts_on_empty_ciphertext_witness :
    ComputeAuthTag sumHmac zeroContext [] (zeros 16) [] = .ok tagOfEmpty ∧
      len tagOfEmpty = zeroContext.tagsize ∧
      ∃ tag, ComputeAuthTag sumHmac zeroContext [] (zeros 16) [] = .ok tag ∧
        len tag = zeroContext.tagsize ∧
        Open sumHmac zeroContext [] (zeros 16) tag [] = .error (.panic .indexOutOfRange) :=
  ⟨by decide, by decide,
    (Open_aborts_on_empty_ciphertext sumHmac sumHmac_wellFormed (zeros 32) shiftCipher
      zeroContext New_zeroContext (shiftBlock_wellFormed (zeros 16)) [] (zeros 16) []
      (by decide)).1⟩

/-- Claim C20: every sealed envelope is well framed.  For a context built by `New` over
a well-formed cipher and a nonce one block long, `Seal(nil, nonce, plaintext, aad)` is
`ct ++ tag`, where `ct` is the CBC ciphertext and `tag` its authentication tag; its
length is `m * blockSize + tagsize` with `m ≥ 1`, its last `tagsize` bytes are the tag
and the bytes before them the ciphertext; and `Open` applied to it, with any `dst`,
nonce and associated data, returns neither the too-short nor the invalid-length error. -/
theorem sealed_well_framed (hmacSum : HmacSum) (hh : hmacSum.WellFormed)
    (key : List Byte) (f : BlockCipherFunc) (c : Hmac) (hnew : New key f = .ok c)
    (hb : c.blockCipher.WellFormed)
    (nonce plaintext data : List Byte) (hnonce : len nonce = c.blockCipher.blockSize) :
    ∃ ct tag : List Byte,
      Seal hmacSum c [] nonce plaintext data = .ok (ct ++ tag) ∧
      cbcEncrypt c.blockCipher nonce (paddedOf plaintext c.blockCipher.blockSize)
        (paddedOf plaintext c.blockCipher.blockSize) = .ok ct ∧
      ComputeAuthTag hmacSum c data nonce ct = .ok tag ∧
      len tag = c.tagsize ∧
      (∃ m : Int, 1 ≤ m ∧ len ct = m * c.blockCipher.blockSize ∧
        len (ct ++ tag) = m * c.blockCipher.blockSize + c.tagsize) ∧
      (ct ++ tag).drop ((ct ++ tag).length - c.tagsize.toNat) = tag ∧
      (ct ++ tag).take ((ct ++ tag).length - c.tagsize.toNat) = ct ∧
      (∀ dst nonce' data' : List Byte,
        Open hmacSum c dst nonce' (ct ++ tag) data' ≠ .error (.err .tooShort) ∧
        ∀ a b : Int,
          Open hmacSum c dst nonce' (ct ++ tag) data' ≠ .error (.err (.invalidLength a b))) := by
  obtain ⟨hks, hts, hle⟩ := New_sizes hnew
  have ht0 : 0 ≤ c.tagsize := by omega
  have hpos := hb.1
  have hseal := Seal_eq hmacSum hh c ht0 hle hpos [] nonce plaintext data hnonce
  simp only [List.nil_append] at hseal
  have hct := sealCiphertext_length c hb nonce plaintext hnonce
  have htl := sealTag_length hmacSum hh c ht0 hle nonce plaintext data
  have hpl := paddedOf_length plaintext (n := c.blockCipher.blockSize) (by omega)
  have hpad := len_add_padLen plaintext c.blockCipher.blockSize
  have hlenct : len (sealCiphertext c nonce plaintext)
      = (len plaintext / c.blockCipher.blockSize + 1) * c.blockCipher.blockSize := by
    rw [← hpad, ← hpl]; unfold len; omega
  have hq : 0 ≤ len plaintext / c.blockCipher.blockSize :=
    Int.ediv_nonneg (len_nonneg plaintext) (by omega)
  have hsub : (sealCiphertext c nonce plaintext
      ++ sealTag hmacSum c nonce plaintext data).length - c.tagsize.toNat
      = (sealCiphertext c nonce plaintext).length := by
    simp only [List.length_append]; omega
  have hlen : len (sealCiphertext c nonce plaintext ++ sealTag hmacSum c nonce plaintext data)
      = len (sealCiphertext c nonce plaintext) + c.tagsize := by
    rw [len_append]; unfold len; omega
  refine ⟨sealCiphertext c nonce plaintext, sealTag hmacSum c nonce plaintext data, hseal,
    cbcEncrypt_ok c.blockCipher hpos nonce _ hnonce (len_paddedOf_mod plaintext (by omega)),
    ComputeAuthTag_ok hmacSum hh c ht0 hle data nonce _, htl,
    ⟨len plaintext / c.blockCipher.blockSize + 1, by omega, hlenct, by rw [hlen, hlenct]⟩,
    by rw [hsub, List.drop_left' rfl], by rw [hsub, List.take_left' rfl], ?_⟩
  intro dst nonce' data'
  have h0 := len_nonneg (sealCiphertext c nonce plaintext)
  have hmod : (len (sealCiphertext c nonce plaintext
      ++ sealTag hmacSum c nonce plaintext data) - c.tagsize) % c.blockCipher.blockSize = 0 := by
    rw [hlen, hlenct]
    have : (len plaintext / c.blockCipher.blockSize + 1) * c.blockCipher.blockSize
        + c.tagsize - c.tagsize
        = (len plaintext / c.blockCipher.blockSize + 1) * c.blockCipher.blockSize := by omega
    rw [this]
    exact Int.mul_emod_left _ _
  have hopen := Open_framed hmacSum hh c ht0 hle hpos dst nonce'
    (sealCiphertext c nonce plaintext ++ sealTag hmacSum c nonce plaintext data) data'
    (by omega) (by omega) hmod
  have hcases : ∀ e : Err, Open hmacSum c dst nonce'
      (sealCiphertext c nonce plaintext ++ sealTag hmacSum c nonce plaintext data) data'
      = .error (.err e) → e = .tagMismatch ∨ ∃ e', e = .generatePlaintext e' := by
    intro e he
    rw [hopen] at he
    split_ifs at he
    · exact Or.inr (openVerified_err_inv he)
    · cases he
      exact Or.inl rfl
  constructor
  · intro h
    rcases hcases _ h with h' | ⟨e', h'⟩ <;> cases h'
  · intro a b h
    rcases hcases _ h with h' | ⟨e', h'⟩ <;> cases h'

set_option maxRecDepth 100000 in
theorem sealed_well_framed_witness :
    Seal sumHmac zeroContext [] (zeros 16) testBytes [] = .ok sealedTest ∧
      len sealedTest = 1 * zeroContext.blockCipher.blockSize + zeroContext.tagsize ∧
      ∃ ct tag : List Byte,
        Seal sumHmac zeroContext [] (zeros 16) testBytes [] = .ok (ct ++ tag) ∧
        len tag = zeroContext.tagsize ∧
        (∃ m : Int, 1 ≤ m ∧ len ct = m * zeroContext.blockCipher.blockSize ∧
          len (ct ++ tag) = m * zeroContext.blockCipher.blockSize + zeroContext.tagsize) := by
  obtain ⟨ct, tag, h1, -, -, h4, h5, -⟩ := sealed_well_framed sumHmac sumHmac_wellFormed
    (zeros 32) shiftCipher zeroContext New_zeroContext (shiftBlock_wellFormed (zeros 16))
    (zeros 16) testBytes [] (by decide)
  exact ⟨by decide, by decide, ct, tag, h1, h4, h5⟩

/-! ## Claims on the output buffer -/

theorem openOutput_length (dst p : List Byte) :
    (openOutput dst p).length = max dst.length p.length := by
  unfold openOutput
  simp only [List.length_append, List.length_take]
  omega

theorem openOutput_eq_append_iff (dst p : List Byte) :
    openOutput dst p = dst ++ p ↔ dst = [] ∨ p = [] := by
  unfold openOutput
  rw [List.append_cancel_left_eq, List.take_eq_self_iff,
    ← List.length_eq_zero, ← List.length_eq_zero]
  omega

/-- Claim C21: the shape of `Open`'s result.  Whenever `Open` succeeds, with `p` the
plaintext that `unpad` recovered from the decrypted buffer, the returned buffer has
`max(len(dst), len(p))` bytes; it is `dst` itself when `len(dst) ≥ len(p)`, and
otherwise `dst` followed by the first `len(p) - len(dst)` bytes of `p`; so it equals
`dst ++ p` if and only if `dst` is empty or `p` is empty. -/
theorem Open_result_shape (hmacSum : HmacSum) (c : Hmac) (dst nonce input data r : List Byte)
    (h : Open hmacSum c dst nonce input data = .ok r) :
    ∃ buf p, openDecrypted hmacSum c nonce input data = .ok buf ∧
      unpad buf c.blockCipher.blockSize = .ok p ∧
      r.length = max dst.length p.length ∧
      (p.length ≤ dst.length → r = dst) ∧
      (dst.length < p.length → r = dst ++ p.take (p.length - dst.length)) ∧
      (r = dst ++ p ↔ dst = [] ∨ p = []) := by
  obtain ⟨buf, p, hd, hu, rfl⟩ := Open_ok_inv h
  refine ⟨buf, p, hd, hu, openOutput_length dst p, ?_, fun _ => rfl,
    openOutput_eq_append_iff dst p⟩
  intro hle
  unfold openOutput
  rw [Nat.sub_eq_zero_of_le hle]
  simp

set_option maxRecDepth 100000 in
theorem Open_result_shape_witness :
    Open sumHmac zeroContext [170] (zeros 16) sealedTest [] = .ok [170, 116, 101, 115] ∧
      ∃ buf p, openDecrypted sumHmac zeroContext (zeros 16) sealedTest [] = .ok buf ∧
        unpad buf zeroContext.blockCipher.blockSize = .ok p ∧
        ([170, 116, 101, 115] : List Byte).length = max ([170] : List Byte).length p.length ∧
        (([170] : List Byte).length < p.length →
          ([170, 116, 101, 115] : List Byte)
            = [170] ++ p.take (p.length - ([170] : List Byte).length)) := by
  obtain ⟨buf, p, h1, h2, h3, -, h5, -⟩ := Open_result_shape sumHmac zeroContext [170]
    (zeros 16) sealedTest [] [170, 116, 101, 115] (by decide)
  exact ⟨by decide, buf, p, h1, h2, h3, h5⟩

/-- Claim C22: the append-or-allocate helper.  For every buffer `dst` and every integer
`n`, `ensureSize(dst, n)` returns `dst` itself when `n ≤ len(dst)` (the test reads the
length; the model has no capacity), and otherwise a buffer of exactly `n` bytes whose
first `len(dst)` bytes are `dst` and whose remaining `n - len(dst)` bytes are zero; in
both cases the result has `max(len(dst), n)` bytes. -/
theorem ensureSize_spec (dst : List Byte) (n : Int) :
    (n ≤ len dst → ensureSize dst n = .ok dst) ∧
    (len dst < n →
      ∃ r, ensureSize dst n = .ok r ∧ len r = n ∧ r.take dst.length = dst ∧
        r.drop dst.length = List.replicate (n.toNat - dst.length) 0 ∧
        ((n.toNat - dst.length : Nat) : Int) = n - len dst) ∧
    (∃ r, ensureSize dst n = .ok r ∧ len r = max (len dst) n) := by
  have h0 := len_nonneg dst
  have hgrow : len dst < n →
      len (dst ++ List.replicate (n.toNat - dst.length) (0 : Byte)) = n := by
    intro h
    unfold len at h ⊢
    simp only [List.length_append, List.length_replicate]
    omega
  refine ⟨ensureSize_keep dst n, ?_, ?_⟩
  · intro h
    refine ⟨_, ensureSize_grow dst n h, hgrow h, List.take_left' rfl, List.drop_left' rfl, ?_⟩
    unfold len at h ⊢
    omega
  · by_cases h : len dst < n
    · exact ⟨_, ensureSize_grow dst n h, by rw [hgrow h]; omega⟩
    · exact ⟨_, ensureSize_keep dst n (by omega), by omega⟩

theorem ensureSize_spec_witness :
    ((2 : Int) ≤ len [1, 2, 3] ∧ ensureSize [1, 2, 3] 2 = .ok [1, 2, 3]) ∧
      (len [1, 2, 3] < (5 : Int) ∧
        ∃ r, ensureSize [1, 2, 3] 5 = .ok r ∧ len r = 5 ∧
          r.take ([1, 2, 3] : List Byte).length = [1, 2, 3] ∧
          r.drop ([1, 2, 3] : List Byte).length
            = List.replicate ((5 : Int).toNat - ([1, 2, 3] : List Byte).length) 0 ∧
          ((((5 : Int).toNat - ([1, 2, 3] : List Byte).length : Nat)) : Int)
            = 5 - len [1, 2, 3]) ∧
      ensureSize [1, 2, 3] (-4) = .ok [1, 2, 3] :=
  ⟨⟨by decide, (ensureSize_spec [1, 2, 3] 2).1 (by decide)⟩,
    ⟨by decide, (ensureSize_spec [1, 2, 3] 5).2.1 (by decide)⟩,
    (ensureSize_spec [1, 2, 3] (-4)).1 (by decide)⟩

end Aescbc
